import Mathlib

/-!
Verification of the correlated-differential-privacy pipeline
(`src/data.py`, `src/algo.py`) against its natural-language specification.

The embedding below mirrors the Python source:

* `Traj` models `Trajectory` (an immutable sequence of location codes with
  structural equality — `data.py`, class `Trajectory`).
* `ITD` models the individual trajectory database (`data.py`, class `ITD`):
  an owner uid together with the association list of distinct trajectories
  and their occurrence counts, in insertion order, exactly the data the
  constructor derives from `ITDBuilder.trajs`.  `ITD.id` returns `none`
  where the Python method raises, `ITD.count` is total with default `0`.
* A population (`Dict[int, ITD]`) is an association list `Pop`; a
  riskiest-trajectory assignment (`Dict[int, Trajectory]`) is an
  association list `RMap`.  Dict iteration order is the list order;
  dict-key uniqueness is carried as `Nodup` hypotheses in the theorems.
* Real-valued Python floats are modelled as exact rationals `ℚ`.
-/

abbrev Traj := List Nat

structure ITD where
  uid : Nat
  entries : List (Traj × Nat)

deriving instance DecidableEq for ITD

namespace ITD

/-- The `trajectories` property of `data.py`: the stable-ordered list of
distinct trajectories (`self._ts`). -/
def trajectories (d : ITD) : List Traj := d.entries.map Prod.fst

/-- `ITD.id` of `data.py`: the local id assigned by the constructor is the
enumeration index of the trajectory in `_ts`; a lookup of an absent
trajectory raises, modelled by `none`. -/
def id (d : ITD) (t : Traj) : Option Nat :=
  d.trajectories.findIdx? (fun s => s == t)

/-- `ITD.count` of `data.py`: the stored count if present, else `0`. -/
def count (d : ITD) (t : Traj) : Nat :=
  match d.entries.find? (fun e => e.1 == t) with
  | some e => e.2
  | none => 0

/-- `ITD.contains` of `data.py`. -/
def contains (d : ITD) (t : Traj) : Bool := d.trajectories.contains t

end ITD

abbrev Pop := List (Nat × ITD)

abbrev RMap := List (Nat × Traj)

/-- The key list of a population dict (`itds.keys()`). -/
def keys (pop : Pop) : List Nat := pop.map Prod.fst

/-- Dict indexing `itds[uid]`; only ever applied at present keys in the
source, the default is junk for absent keys. -/
def itdOf (pop : Pop) (u : Nat) : ITD :=
  match pop.find? (fun e => e.1 == u) with
  | some e => e.2
  | none => ⟨u, []⟩

/-- The population-wide occurrence total
`sum(itd.count(traj) for _, itd in itds.items())` from `_risk`. -/
def popCount (pop : Pop) (t : Traj) : Nat :=
  (pop.map (fun e => e.2.count t)).sum

/-- `_risk` of `algo.py`: `cnt / Σ_u itds[u].count(traj)`. -/
def risk (cnt : Nat) (t : Traj) (pop : Pop) : ℚ :=
  (cnt : ℚ) / (popCount pop t : ℚ)

/-- Dict lookup `riskest[u]` (`none` models a missing key). -/
def lookupR (riskest : RMap) (u : Nat) : Option Traj :=
  (riskest.find? (fun e => e.1 == u)).map Prod.snd

/-- `_find_strong_relations` of `algo.py`, read off at one uid: the group
of users sharing `u`'s riskiest trajectory, minus `u` itself.  A group of
size one yields the empty list, exactly as the `len(uids) > 1` guard and
the `defaultdict` default do. -/
def strongOf (riskest : RMap) (u : Nat) : List Nat :=
  match lookupR riskest u with
  | none => []
  | some t => (riskest.filter (fun e => e.1 != u && e.2 == t)).map Prod.fst

/-- `_find_weak_relations` of `algo.py`, read off at one uid: every other
user whose ITD contains `u`'s riskiest trajectory and who is not already a
strong relation of `u`, in population order. -/
def weakOf (pop : Pop) (riskest : RMap) (u : Nat) : List Nat :=
  match lookupR riskest u with
  | none => []
  | some t =>
      (pop.filter (fun e =>
        e.1 != u && (e.2.trajectories).contains t
          && !((strongOf riskest u).contains e.1))).map Prod.fst

/-- `_affected_by` of `algo.py`, read off at one uid: the source seeds
`affected[u] = [u]` and then appends `k` to `affected[v]` for every strong
or weak relation `v ∈ strong[k]` / `v ∈ weak[k]`; element-wise this makes
`affected[u]` consist of `u` plus every `k` whose relation points at `u`. -/
def affected_by (pop : Pop) (riskest : RMap) (u : Nat) : List Nat :=
  u :: (((riskest.map Prod.fst).filter (fun k => (strongOf riskest k).contains u))
     ++ ((keys pop).filter (fun k => (weakOf pop riskest k).contains u)))

/-! Concrete populations used by the witnesses. -/

def exItdA : ITD := ⟨1, [([0], 2), ([1], 1)]⟩

def exItdB : ITD := ⟨2, [([0], 2)]⟩

def exPop : Pop := [(1, exItdA), (2, exItdB)]

def exRisk : RMap := [(1, [0]), (2, [0])]

def exPopR : Pop := [(2, exItdB), (1, exItdA)]

def exRiskR : RMap := [(2, [0]), (1, [0])]

def soloItd : ITD := ⟨1, [([5], 1)]⟩

def soloPop : Pop := [(1, soloItd)]

def soloRisk : RMap := [(1, [5])]

/-! Embedding of `compute_CIDP` (`algo.py`).  The two n×n Python lists
`mat_L`, `mat_R` become total functions `Nat → Nat → ℚ`; only cells with
both coordinates below `pop.length` are ever read or written by the
embedded code.  In-place element assignment `m[i][j] = v` is the
functional overwrite `mset`, and `m[i][i] += v` is `madd`. -/

abbrev Mat := Nat → Nat → ℚ

def mset (m : Mat) (i j : Nat) (v : ℚ) : Mat :=
  fun a b => if a = i ∧ b = j then v else m a b

def madd (m : Mat) (i j : Nat) (v : ℚ) : Mat :=
  fun a b => if a = i ∧ b = j then m a b + v else m a b

/-- `sorted(itds.keys())`. -/
def sortedKeys (pop : Pop) : List Nat :=
  List.insertionSort (fun a b => a ≤ b) (keys pop)

/-- `idx2uid`: indices are assigned to users sorted by UID. -/
def idx2uid (pop : Pop) (i : Nat) : Nat := (sortedKeys pop).getD i 0

/-- `uid2idx` (for an absent uid this evaluates to `pop.length`, the
Python dict would raise `KeyError` there). -/
def uid2idx (pop : Pop) (u : Nat) : Nat := (sortedKeys pop).indexOf u

/-- The body of the strong-relation inner loop of `compute_CIDP`:
`L[i][i] += 0.5; L[j][j] += 0.5; L[i][j] = L[j][i] = -1;
 R[i][j] = -ε_i; R[j][i] = -ε_j`. -/
def stepStrong (pop : Pop) (epsl : Nat → ℚ) (i : Nat)
    (LR : Mat × Mat) (uj : Nat) : Mat × Mat :=
  let j := uid2idx pop uj
  let L1 := madd LR.1 i i (1/2)
  let L2 := madd L1 j j (1/2)
  let L3 := mset L2 i j (-1)
  let L4 := mset L3 j i (-1)
  let R1 := mset LR.2 i j (-(epsl (idx2uid pop i)))
  let R2 := mset R1 j i (-(epsl (idx2uid pop j)))
  (L4, R2)

/-- The body of the weak-relation inner loop of `compute_CIDP`:
`L[i][i] += 1; L[j][j] += 1; L[i][j] = L[j][i] = -1;
 R[i][j] = -ε_i·θ; R[j][i] = 0`. -/
def stepWeak (pop : Pop) (epsl : Nat → ℚ) (theta : ℚ) (i : Nat)
    (LR : Mat × Mat) (uj : Nat) : Mat × Mat :=
  let j := uid2idx pop uj
  let L1 := madd LR.1 i i 1
  let L2 := madd L1 j j 1
  let L3 := mset L2 i j (-1)
  let L4 := mset L3 j i (-1)
  let R1 := mset LR.2 i j (-(epsl (idx2uid pop i)) * theta)
  let R2 := mset R1 j i 0
  (L4, R2)

/-- One iteration of the outer `for i in range(n)` loop of `compute_CIDP`:
first all strong relations of `idx2uid[i]`, then all weak ones. -/
def outerStep (pop : Pop) (riskest : RMap) (epsl : Nat → ℚ) (theta : ℚ)
    (LR : Mat × Mat) (i : Nat) : Mat × Mat :=
  (weakOf pop riskest (idx2uid pop i)).foldl (stepWeak pop epsl theta i)
    ((strongOf riskest (idx2uid pop i)).foldl (stepStrong pop epsl i) LR)

/-- `mat_L = [[0] * n ...]`. -/
def initL : Mat := fun _ _ => 0

/-- `mat_R = [[-epsl[idx2uid[i]]] * n ...]`. -/
def initR (pop : Pop) (epsl : Nat → ℚ) : Mat :=
  fun a _ => -(epsl (idx2uid pop a))

/-- The relation loops of `compute_CIDP`, producing `mat_L` and `mat_R`
just before the diagonal pass. -/
def buildLR (pop : Pop) (riskest : RMap) (epsl : Nat → ℚ) (theta : ℚ) :
    Mat × Mat :=
  (List.range pop.length).foldl (outerStep pop riskest epsl theta)
    (initL, initR pop epsl)

/-- The diagonal pass of `compute_CIDP`:
`if mat_L[i][i]: mat_R[i][i] = epsl[idx2uid[i]] / mat_L[i][i]`. -/
def fixDiag (pop : Pop) (epsl : Nat → ℚ) (L : Mat) (R : Mat) : Mat :=
  (List.range pop.length).foldl
    (fun Racc i =>
      if L i i ≠ 0 then mset Racc i i (epsl (idx2uid pop i) / L i i) else Racc)
    R

/-- The final matrices of `compute_CIDP`. -/
def cidpMats (pop : Pop) (riskest : RMap) (epsl : Nat → ℚ) (theta : ℚ) :
    Mat × Mat :=
  let LR := buildLR pop riskest epsl theta
  (LR.1, fixDiag pop epsl LR.1 LR.2)

/-- Row `i` of the result:
`cidp[idx2uid[i]] = sum(mat_L[i][j] * mat_R[j][i] for j in range(n))`. -/
def cidpRow (pop : Pop) (riskest : RMap) (epsl : Nat → ℚ) (theta : ℚ)
    (i : Nat) : ℚ :=
  ((List.range pop.length).map
    (fun j => (cidpMats pop riskest epsl theta).1 i j *
              (cidpMats pop riskest epsl theta).2 j i)).sum

/-- `compute_CIDP` of `algo.py`: the returned dict, as an association list
in index order. -/
def compute_CIDP (pop : Pop) (riskest : RMap) (epsl : Nat → ℚ)
    (theta : ℚ) : List (Nat × ℚ) :=
  (List.range pop.length).map
    (fun i => (idx2uid pop i, cidpRow pop riskest epsl theta i))

/-- Dict indexing `cidp[u]` on the solver result (`0` default in place of
Python's `KeyError`; the source only indexes present keys). -/
def dlookup (d : List (Nat × ℚ)) (u : Nat) : ℚ :=
  match d.find? (fun e => e.1 == u) with
  | some e => e.2
  | none => 0

/-- Whether `u` takes part in any relation, in any direction: a strong
partner, an outgoing weak relation, or an incoming weak relation. -/
def hasRel (pop : Pop) (riskest : RMap) (u : Nat) : Prop :=
  strongOf riskest u ≠ [] ∨ weakOf pop riskest u ≠ [] ∨
    ∃ w ∈ keys pop, u ∈ weakOf pop riskest w

/-! Embedding of `compute_IDFA` (`algo.py`).  The two `while True` search
loops are given explicit fuel; `none` means the loop did not exit within
the given fuel, so termination of the source loop is exactly the
existence of sufficient fuel.  The state threaded through the per-user
loop is the pair of the budget dict `epsl` (a total function, as budgets
are defined for every uid of the population) and the latest solver result
`cidp`, both of which the source mutates in place. -/

/-- One pass of `epsl[uid_] += beta`. -/
def addTo (beta : ℚ) (epsl : Nat → ℚ) (w : Nat) : Nat → ℚ :=
  fun x => if x = w then epsl x + beta else epsl x

/-- One pass of `epsl[uid_] -= beta`. -/
def subTo (beta : ℚ) (epsl : Nat → ℚ) (w : Nat) : Nat → ℚ :=
  fun x => if x = w then epsl x - beta else epsl x

/-- `for uid_ in affected[uid]: epsl[uid_] += beta`. -/
def bumpUp (A : List Nat) (beta : ℚ) (epsl : Nat → ℚ) : Nat → ℚ :=
  A.foldl (fun e w => addTo beta e w) epsl

/-- `for uid_ in affected[uid]: epsl[uid_] -= beta`. -/
def bumpDown (A : List Nat) (beta : ℚ) (epsl : Nat → ℚ) : Nat → ℚ :=
  A.foldl (fun e w => subTo beta e w) epsl

/-- The increment search loop of `compute_IDFA`: bump all affected
budgets, recompute the full disclosure vector, stop once `cidp[uid] > 1`.
`compute_CIDP` is called with its default `theta = 0.25`. -/
def idfaInc (pop : Pop) (riskest : RMap) (A : List Nat) (u : Nat)
    (beta : ℚ) : Nat → (Nat → ℚ) → Option ((Nat → ℚ) × List (Nat × ℚ))
  | 0, _ => none
  | fuel+1, epsl =>
    let epsl1 := bumpUp A beta epsl
    let cidp1 := compute_CIDP pop riskest epsl1 (1/4)
    if 1 < dlookup cidp1 u then some (epsl1, cidp1)
    else idfaInc pop riskest A u beta fuel epsl1

/-- The decrement search loop of `compute_IDFA`: lower all affected
budgets, recompute, stop once `cidp[uid] <= 1`. -/
def idfaDec (pop : Pop) (riskest : RMap) (A : List Nat) (u : Nat)
    (beta : ℚ) : Nat → (Nat → ℚ) → Option ((Nat → ℚ) × List (Nat × ℚ))
  | 0, _ => none
  | fuel+1, epsl =>
    let epsl1 := bumpDown A beta epsl
    let cidp1 := compute_CIDP pop riskest epsl1 (1/4)
    if dlookup cidp1 u ≤ 1 then some (epsl1, cidp1)
    else idfaDec pop riskest A u beta fuel epsl1

/-- One iteration of the per-user optimization loop of `compute_IDFA`:
skip users outside the riskiest assignment, else run the search loop the
guards select (`epsl[uid] < cidp[uid] <= 1` / `cidp[uid] > 1`). -/
def idfaUser (pop : Pop) (riskest : RMap) (beta : ℚ) (fuel : Nat)
    (s : (Nat → ℚ) × List (Nat × ℚ)) (u : Nat) :
    Option ((Nat → ℚ) × List (Nat × ℚ)) :=
  if lookupR riskest u = none then some s
  else if s.1 u < dlookup s.2 u ∧ dlookup s.2 u ≤ 1 then
    idfaInc pop riskest (affected_by pop riskest u) u beta fuel s.1
  else if 1 < dlookup s.2 u then
    idfaDec pop riskest (affected_by pop riskest u) u beta fuel s.1
  else some s

/-- `compute_IDFA` of `algo.py`, with fuelled inner loops: start every
budget at `epsl_init`, compute the initial disclosure vector, then
optimize the users in population order and return the budget dict. -/
def compute_IDFA (fuel : Nat) (pop : Pop) (riskest : RMap)
    (epsl_init : ℚ) (beta : ℚ) : Option (Nat → ℚ) :=
  ((keys pop).foldl
    (fun acc u => acc.bind (fun s => idfaUser pop riskest beta fuel s u))
    (some ((fun _ => epsl_init),
      compute_CIDP pop riskest (fun _ => epsl_init) (1/4)))).map Prod.fst

/-! Embedding of `sanitize` (`algo.py`).  Laplace draws
(`np.random.laplace(0, scale, 1)`) are modelled by an oracle
`lap : ℚ → ℚ` mapping the scale to the drawn value; the claims settled
against `sanitize` do not depend on the drawn values.  The count-shrink
loop is modelled for thresholds `p > 0`, where the count can never pass
below zero (at count 0 the risk is 0 < p and the loop stops), matching
every use in this repository (`p` defaults to 0.5).  `compute_IDFA`
needs fuel in the embedding, so `sanitize` does too: the outer `none`
means the fuel ran out (a model artifact, never the source), `some none`
is Python's `None` fall-through, and `some (some table)` is a returned
noised count table. -/

/-- The queue of risky trajectories of one user: risks sorted ascending,
kept while `v >= p` (`sorted(tv, key=lambda x: x[1])`, then the filter). -/
def riskyOf (pop : Pop) (p : ℚ) (d : ITD) : List Traj :=
  ((List.insertionSort (fun x y => x.2 ≤ y.2)
      (d.trajectories.map (fun t => (t, risk (d.count t) t pop)))).filter
    (fun x => p ≤ x.2)).map Prod.fst

/-- The count-shrink loop of `sanitize`:
`while True: v = _risk(cnt, ...); if v < p: break; cnt -= 1`. -/
def shrinkCnt (pop : Pop) (p : ℚ) (t : Traj) : Nat → Nat
  | 0 => 0
  | c+1 => if risk (c+1) t pop < p then c+1 else shrinkCnt pop p t c

/-- One pass of the `for round_ in range(1, max_round)` loop of
`sanitize` (with the number of remaining iterations as the recursion
argument).  The body unconditionally ends in `return noise_count`, so the
recursive case is never taken: the source produces at most one round. -/
def sanitizeRound (pop : Pop) (p : ℚ) (fuel : Nat) (lap : ℚ → ℚ) :
    Nat → (Nat → List Traj) → (Nat → List ℚ) →
    Option (Option (List (Nat × List (Traj × ℚ))))
  | 0, _, _ => some none
  | _+1, risky, nscale =>
    let riskest : RMap := pop.filterMap (fun e =>
      match (risky e.1).getLast? with
      | some t => some (e.1, t)
      | none => none)
    if riskest.isEmpty then some none
    else
      match compute_IDFA fuel pop riskest (1/10) (1/20) with
      | none => none
      | some epsl_opt =>
        let nscale1 : Nat → List ℚ := fun u =>
          match lookupR riskest u with
          | some t =>
            let cnt := shrinkCnt pop p t ((itdOf pop u).count t)
            nscale u ++ [(((itdOf pop u).count t - cnt : Nat) : ℚ) / epsl_opt u]
          | none => nscale u
        some (some (pop.map (fun e =>
          (e.1, e.2.trajectories.map (fun t =>
            (t, (e.2.count t : ℚ) + ((nscale1 e.1).map lap).sum))))))

/-- `sanitize` of `algo.py`; `range(1, max_round)` runs at most
`max_round - 1` iterations. -/
def sanitize (pop : Pop) (p : ℚ) (max_round : Nat) (fuel : Nat)
    (lap : ℚ → ℚ) : Option (Option (List (Nat × List (Traj × ℚ)))) :=
  sanitizeRound pop p fuel lap (max_round - 1)
    (fun u => riskyOf pop p (itdOf pop u)) (fun _ => [])

/-- The single user of the C2 failing input: two trajectories, each held
only by this user, so both have risk 1. -/
def bugItd : ITD := ⟨1, [([0], 1), ([1], 1)]⟩

def bugPop : Pop := [(1, bugItd)]

/-! General list helpers used throughout. -/

theorem two_le_length_of_mem {α : Type _} {a b : α} {l : List α}
    (ha : a ∈ l) (hb : b ∈ l) (hne : a ≠ b) : 2 ≤ l.length := by
  cases l with
  | nil => cases ha
  | cons x xs =>
    cases xs with
    | nil =>
      simp only [List.mem_singleton] at ha hb
      exact absurd (ha.trans hb.symm) hne
    | cons y ys => simp [List.length_cons]

theorem sum_map_filter_of_zero {α : Type _} (l : List α) (g : α → ℚ)
    (p : α → Bool) (h : ∀ x ∈ l, p x = false → g x = 0) :
    ((l.filter p).map g).sum = (l.map g).sum := by
  induction l with
  | nil => rfl
  | cons x xs ih =>
    by_cases hx : p x = true
    · simp only [List.filter_cons, hx, if_true, List.map_cons, List.sum_cons]
      rw [ih (fun y hy hpy => h y (List.mem_cons_of_mem x hy) hpy)]
    · have hx0 : p x = false := by
        cases hpx : p x with
        | true => exact absurd hpx hx
        | false => rfl
      simp only [List.filter_cons, hx0, Bool.false_eq_true, if_false,
        List.map_cons, List.sum_cons, h x (List.mem_cons_self x xs) hx0, zero_add]
      exact ih (fun y hy hpy => h y (List.mem_cons_of_mem x hy) hpy)

theorem lookupR_eq_some_of_mem {riskest : RMap} {u : Nat} {t : Traj}
    (hnd : (riskest.map Prod.fst).Nodup) (hm : (u, t) ∈ riskest) :
    lookupR riskest u = some t := by
  induction riskest with
  | nil => cases hm
  | cons e es ih =>
    simp only [List.map_cons, List.nodup_cons] at hnd
    rcases List.mem_cons.mp hm with he | hes
    · subst he
      simp [lookupR, List.find?]
    · have hne : e.1 ≠ u := by
        intro h
        exact hnd.1 (h ▸ (List.mem_map.mpr ⟨(u, t), hes, rfl⟩))
      have := ih hnd.2 hes
      simp only [lookupR, List.find?] at this ⊢
      have hb : (e.1 == u) = false := by
        simp [hne]
      rw [hb]
      exact this

theorem mem_of_lookupR_eq_some {riskest : RMap} {u : Nat} {t : Traj}
    (h : lookupR riskest u = some t) : (u, t) ∈ riskest := by
  unfold lookupR at h
  cases hf : riskest.find? (fun e => e.1 == u) with
  | none => rw [hf] at h; cases h
  | some e =>
    rw [hf] at h
    have hmem := List.mem_of_find?_eq_some hf
    have hp := List.find?_some hf
    have h1 : e.1 = u := by simpa using hp
    have h2 : e.2 = t := by simpa using h
    have : e = (u, t) := by
      cases e; simp_all
    exact this ▸ hmem

theorem lookupR_isSome_iff {riskest : RMap} {u : Nat} :
    (lookupR riskest u).isSome = true ↔ u ∈ riskest.map Prod.fst := by
  constructor
  · intro h
    cases hl : lookupR riskest u with
    | none => rw [hl] at h; cases h
    | some t => exact List.mem_map.mpr ⟨(u, t), mem_of_lookupR_eq_some hl, rfl⟩
  · intro h
    rcases List.mem_map.mp h with ⟨e, he, hu⟩
    unfold lookupR
    cases hf : riskest.find? (fun x => x.1 == u) with
    | some x => simp
    | none =>
      have := List.find?_eq_none.mp hf e he
      simp [hu] at this

/-- Membership characterization of `strongOf` under dict-key uniqueness. -/
theorem mem_strongOf_iff {riskest : RMap} (hnd : (riskest.map Prod.fst).Nodup)
    {u v : Nat} :
    v ∈ strongOf riskest u ↔
      v ≠ u ∧ ∃ t, lookupR riskest u = some t ∧ lookupR riskest v = some t := by
  unfold strongOf
  cases hl : lookupR riskest u with
  | none =>
    simp only [List.not_mem_nil, false_iff, not_and]
    rintro - ⟨t, ht, -⟩
    exact Option.noConfusion ht
  | some t =>
    constructor
    · intro hv
      rcases List.mem_map.mp hv with ⟨e, hef, hev⟩
      have hmem := List.mem_of_mem_filter hef
      have hp := List.of_mem_filter hef
      simp only [Bool.and_eq_true, bne_iff_ne, beq_iff_eq] at hp
      refine ⟨hev ▸ hp.1, t, rfl, ?_⟩
      have : (v, t) ∈ riskest := by
        have : e = (v, t) := by
          cases e
          simp only at hev
          simp_all
        exact this ▸ hmem
      exact lookupR_eq_some_of_mem hnd this
    · rintro ⟨hne, s, hs, hvs⟩
      have hst : s = t := (Option.some_injective _ hs).symm
      subst hst
      have hmemv : (v, s) ∈ riskest := mem_of_lookupR_eq_some hvs
      refine List.mem_map.mpr ⟨(v, s), ?_, rfl⟩
      refine List.mem_filter.mpr ⟨hmemv, ?_⟩
      simp [hne]

/-- Membership characterization of `weakOf`. -/
theorem mem_weakOf_iff {pop : Pop} {riskest : RMap} {u v : Nat} :
    v ∈ weakOf pop riskest u ↔
      v ≠ u ∧ ∃ t d, lookupR riskest u = some t ∧ (v, d) ∈ pop ∧
        t ∈ d.trajectories ∧ v ∉ strongOf riskest u := by
  unfold weakOf
  cases hl : lookupR riskest u with
  | none =>
    simp only [List.not_mem_nil, false_iff, not_and]
    rintro - ⟨t, d, ht, -⟩
    exact Option.noConfusion ht
  | some t =>
    constructor
    · intro hv
      rcases List.mem_map.mp hv with ⟨e, hef, hev⟩
      have hmem := List.mem_of_mem_filter hef
      have hp := List.of_mem_filter hef
      simp only [Bool.and_eq_true, bne_iff_ne, Bool.not_eq_eq_eq_not,
        Bool.not_true, List.elem_eq_mem, decide_eq_true_eq,
        decide_eq_false_iff_not, List.contains] at hp
      subst hev
      exact ⟨hp.1.1, t, e.2, rfl, hmem, hp.1.2, hp.2⟩
    · rintro ⟨hne, s, d, hs, hmem, htr, hns⟩
      have hst : s = t := (Option.some_injective _ hs).symm
      subst hst
      refine List.mem_map.mpr ⟨(v, d), ?_, rfl⟩
      refine List.mem_filter.mpr ⟨hmem, ?_⟩
      simp only [Bool.and_eq_true, bne_iff_ne, Bool.not_eq_eq_eq_not,
        Bool.not_true, List.elem_eq_mem, decide_eq_true_eq,
        decide_eq_false_iff_not, List.contains]
      exact ⟨⟨hne, htr⟩, hns⟩

/-- If `u` has a non-empty strong list, `u` is a key of the assignment. -/
theorem mem_keys_of_strongOf (riskest : RMap) (u v : Nat) (h : v ∈ strongOf riskest u) :
    u ∈ riskest.map Prod.fst := by
  unfold strongOf at h
  cases hl : lookupR riskest u with
  | none => rw [hl] at h; cases h
  | some t =>
    exact List.mem_map.mpr ⟨(u, t), mem_of_lookupR_eq_some hl, rfl⟩

/-- C9: for every ITD and trajectory, `ITD.id` fails exactly on absent
trajectories (the Python method raises), while `ITD.count` is total and on
absent trajectories returns `0`. -/
theorem itd_id_count_spec (d : ITD) (t : Traj) :
    (d.id t = none ↔ t ∉ d.trajectories) ∧
    (t ∈ d.trajectories ∨ d.count t = 0) := by
  constructor
  · unfold ITD.id
    rw [List.findIdx?_eq_none_iff]
    constructor
    · intro h hm
      have := h t hm
      simp at this
    · intro h x hx
      simp only [beq_eq_false_iff_ne, ne_eq]
      intro hxt
      exact h (hxt ▸ hx)
  · by_cases hm : t ∈ d.trajectories
    · exact Or.inl hm
    · refine Or.inr ?_
      unfold ITD.count
      cases hf : d.entries.find? (fun e => e.1 == t) with
      | none => rfl
      | some e =>
        exfalso
        have hmem := List.mem_of_find?_eq_some hf
        have hp := List.find?_some hf
        simp only [beq_iff_eq] at hp
        exact hm (hp ▸ List.mem_map.mpr ⟨e, hmem, rfl⟩)

/-- C5: `_risk` computes the population-fraction `cnt / Σ_u count_u(t)`,
lies in `(0, 1]` whenever `1 ≤ cnt ≤` the supplying user's stored count,
and the risks of all users holding a nonzero count of `t` sum to `1`. -/
theorem risk_spec (pop : Pop) (u : Nat) (d : ITD) (t : Traj) (c : Nat)
    (hmem : (u, d) ∈ pop) (h1 : 1 ≤ c) (h2 : c ≤ d.count t) :
    risk c t pop = (c : ℚ) / (popCount pop t : ℚ) ∧
    0 < risk c t pop ∧ risk c t pop ≤ 1 ∧
    ((pop.filter (fun e => e.2.count t != 0)).map
        (fun e => risk (e.2.count t) t pop)).sum = 1 := by
  have hdc : d.count t ≤ popCount pop t := by
    unfold popCount
    exact List.single_le_sum (by intro x _; exact Nat.zero_le x) _
      (List.mem_map.mpr ⟨(u, d), hmem, rfl⟩)
  have hpos : 0 < popCount pop t :=
    lt_of_lt_of_le (lt_of_lt_of_le Nat.one_pos h1) (le_trans h2 hdc)
  have hposQ : (0 : ℚ) < (popCount pop t : ℚ) := by exact_mod_cast hpos
  refine ⟨rfl, ?_, ?_, ?_⟩
  · exact div_pos (by exact_mod_cast lt_of_lt_of_le Nat.one_pos h1) hposQ
  · unfold risk
    rw [div_le_one hposQ]
    exact_mod_cast le_trans h2 hdc
  · rw [sum_map_filter_of_zero]
    · have hconv : pop.map (fun e => risk (e.2.count t) t pop)
          = pop.map (fun e => ((e.2.count t : ℚ)) * ((popCount pop t : ℚ))⁻¹) := by
        apply List.map_congr_left
        intro e _
        unfold risk
        rw [div_eq_mul_inv]
      rw [hconv, List.sum_map_mul_right]
      have hcast : (pop.map (fun e => ((e.2.count t : ℕ) : ℚ))).sum
          = ((popCount pop t : ℕ) : ℚ) := by
        unfold popCount
        rw [Nat.cast_list_sum, List.map_map]
        rfl
      rw [hcast]
      exact mul_inv_cancel₀ (ne_of_gt hposQ)
    · intro e _ hpe
      simp only [bne_eq_false_iff_eq, beq_iff_eq] at hpe
      unfold risk
      rw [hpe]
      simp

theorem risk_spec_witness :
    0 < risk 1 [0] exPop ∧ risk 1 [0] exPop ≤ 1 := by
  have h := risk_spec exPop 1 exItdA [0] 1 (by decide) (by decide) (by decide)
  exact ⟨h.2.1, h.2.2.1⟩

/-- C6: strong relations are symmetric, and two distinct users are strong
relations exactly when they have the same riskiest trajectory — in which
case at least two users share that riskiest trajectory. -/
theorem strong_relations_spec (riskest : RMap)
    (hnd : (riskest.map Prod.fst).Nodup) (u v : Nat) :
    (v ∈ strongOf riskest u ↔ u ∈ strongOf riskest v) ∧
    (v ∈ strongOf riskest u ↔
      v ≠ u ∧ ∃ t, lookupR riskest u = some t ∧ lookupR riskest v = some t ∧
        2 ≤ (riskest.filter (fun e => e.2 == t)).length) := by
  constructor
  · rw [mem_strongOf_iff hnd, mem_strongOf_iff hnd]
    constructor
    · rintro ⟨hne, t, hu, hv⟩
      exact ⟨hne.symm, t, hv, hu⟩
    · rintro ⟨hne, t, hv, hu⟩
      exact ⟨hne.symm, t, hu, hv⟩
  · rw [mem_strongOf_iff hnd]
    constructor
    · rintro ⟨hne, t, hu, hv⟩
      refine ⟨hne, t, hu, hv, ?_⟩
      have hmu : (u, t) ∈ riskest.filter (fun e => e.2 == t) :=
        List.mem_filter.mpr ⟨mem_of_lookupR_eq_some hu, by simp⟩
      have hmv : (v, t) ∈ riskest.filter (fun e => e.2 == t) :=
        List.mem_filter.mpr ⟨mem_of_lookupR_eq_some hv, by simp⟩
      exact two_le_length_of_mem hmu hmv (by simp [hne.symm])
    · rintro ⟨hne, t, hu, hv, -⟩
      exact ⟨hne, t, hu, hv⟩

theorem strong_relations_spec_witness :
    2 ∈ strongOf exRisk 1 ∧ 1 ∈ strongOf exRisk 2 := by
  have h := strong_relations_spec exRisk (by decide) 1 2
  constructor
  · exact (h.1).mpr (by decide)
  · exact (h.1).mp (by decide)

theorem mem_affected_by_iff (pop : Pop) (riskest : RMap)
    (hsub : ∀ e ∈ riskest, e.1 ∈ keys pop) (u v : Nat) :
    v ∈ affected_by pop riskest u ↔
      v = u ∨ u ∈ strongOf riskest v ∨ u ∈ weakOf pop riskest v := by
  unfold affected_by
  simp only [List.mem_cons, List.mem_append, List.mem_filter, List.contains,
    List.elem_eq_mem, decide_eq_true_eq]
  constructor
  · rintro (h | ⟨-, h⟩ | ⟨-, h⟩)
    · exact Or.inl h
    · exact Or.inr (Or.inl h)
    · exact Or.inr (Or.inr h)
  · rintro (h | h | h)
    · exact Or.inl h
    · exact Or.inr (Or.inl ⟨mem_keys_of_strongOf riskest v u h, h⟩)
    · refine Or.inr (Or.inr ⟨?_, h⟩)
      rcases mem_weakOf_iff.mp h with ⟨-, t, -, ht, -, -, -⟩
      exact hsub (v, t) (mem_of_lookupR_eq_some ht)

/-- C7: the affected-by closure contains `u` itself, plus exactly the users
`v` whose strong or weak relation points at `u` — one hop, nothing more. -/
theorem affected_by_spec (pop : Pop) (riskest : RMap)
    (hsub : ∀ e ∈ riskest, e.1 ∈ keys pop) (u v : Nat) :
    v ∈ affected_by pop riskest u ↔
      v = u ∨ u ∈ strongOf riskest v ∨ u ∈ weakOf pop riskest v :=
  mem_affected_by_iff pop riskest hsub u v

theorem affected_by_spec_witness :
    1 ∈ affected_by exPop exRisk 1 ∧ 2 ∈ affected_by exPop exRisk 1 := by
  have h1 := affected_by_spec exPop exRisk (by decide) 1 1
  have h2 := affected_by_spec exPop exRisk (by decide) 1 2
  exact ⟨h1.mpr (Or.inl rfl), h2.mpr (by decide)⟩

/-! Generic fold-invariant helpers. -/

theorem foldl_inv {α β : Type _} (P : β → Prop) (f : β → α → β)
    (l : List α) (s : β) (h0 : P s)
    (hstep : ∀ b a, a ∈ l → P b → P (f b a)) : P (l.foldl f s) := by
  induction l generalizing s with
  | nil => exact h0
  | cons x xs ih =>
    exact ih (f s x) (hstep s x (List.mem_cons_self x xs) h0)
      (fun b a ha hb => hstep b a (List.mem_cons_of_mem x ha) hb)

theorem foldl_rel {α β γ : Type _} (P : β → γ → Prop) (f : β → α → β)
    (g : γ → α → γ) (l : List α) (s : β) (t : γ) (h0 : P s t)
    (hstep : ∀ b c a, a ∈ l → P b c → P (f b a) (g c a)) :
    P (l.foldl f s) (l.foldl g t) := by
  induction l generalizing s t with
  | nil => exact h0
  | cons x xs ih =>
    exact ih (f s x) (g t x) (hstep s t x (List.mem_cons_self x xs) h0)
      (fun b c a ha h => hstep b c a (List.mem_cons_of_mem x ha) h)

/-! Facts about the sorted uid indexing of `compute_CIDP`. -/

theorem sortedKeys_perm (pop : Pop) : (sortedKeys pop).Perm (keys pop) :=
  List.perm_insertionSort _ (keys pop)

theorem sortedKeys_length (pop : Pop) :
    (sortedKeys pop).length = pop.length := by
  rw [(sortedKeys_perm pop).length_eq]
  exact List.length_map _ _

theorem sortedKeys_nodup (pop : Pop) (hk : (keys pop).Nodup) :
    (sortedKeys pop).Nodup :=
  (sortedKeys_perm pop).symm.nodup hk

theorem mem_sortedKeys {pop : Pop} {u : Nat} :
    u ∈ sortedKeys pop ↔ u ∈ keys pop :=
  (sortedKeys_perm pop).mem_iff

theorem uid2idx_lt {pop : Pop} {u : Nat} (hu : u ∈ keys pop) :
    uid2idx pop u < pop.length := by
  rw [← sortedKeys_length pop]
  exact List.indexOf_lt_length.mpr (mem_sortedKeys.mpr hu)

theorem idx2uid_uid2idx {pop : Pop} {u : Nat} (hu : u ∈ keys pop) :
    idx2uid pop (uid2idx pop u) = u := by
  unfold idx2uid uid2idx
  have h : List.indexOf u (sortedKeys pop) < (sortedKeys pop).length :=
    List.indexOf_lt_length.mpr (mem_sortedKeys.mpr hu)
  rw [List.getD_eq_getElem _ 0 h]
  exact List.getElem_indexOf h

theorem idx2uid_mem {pop : Pop} {i : Nat} (hi : i < pop.length) :
    idx2uid pop i ∈ keys pop := by
  have h : i < (sortedKeys pop).length := by
    rw [sortedKeys_length]; exact hi
  rw [idx2uid, List.getD_eq_getElem _ 0 h]
  exact mem_sortedKeys.mp (List.getElem_mem h)

theorem uid2idx_idx2uid {pop : Pop} (hk : (keys pop).Nodup) {i : Nat}
    (hi : i < pop.length) : uid2idx pop (idx2uid pop i) = i := by
  have h : i < (sortedKeys pop).length := by
    rw [sortedKeys_length]; exact hi
  have hnd := sortedKeys_nodup pop hk
  unfold uid2idx idx2uid
  rw [List.getD_eq_getElem _ 0 h]
  have hmem : (sortedKeys pop)[i] ∈ sortedKeys pop := List.getElem_mem h
  have hlt : List.indexOf (sortedKeys pop)[i] (sortedKeys pop)
      < (sortedKeys pop).length := List.indexOf_lt_length.mpr hmem
  exact (hnd.getElem_inj_iff).mp (List.getElem_indexOf hlt)

theorem uid2idx_eq_iff {pop : Pop} (hk : (keys pop).Nodup) {u : Nat}
    {i : Nat} (hu : u ∈ keys pop) (hi : i < pop.length) :
    uid2idx pop u = i ↔ u = idx2uid pop i := by
  constructor
  · intro h
    rw [← h, idx2uid_uid2idx hu]
  · intro h
    rw [h, uid2idx_idx2uid hk hi]

/-! Side facts about the relation lists. -/

theorem ne_of_mem_strongOf {riskest : RMap} {u v : Nat}
    (h : v ∈ strongOf riskest u) : v ≠ u := by
  unfold strongOf at h
  cases hl : lookupR riskest u with
  | none => rw [hl] at h; cases h
  | some t =>
    rw [hl] at h
    rcases List.mem_map.mp h with ⟨e, hef, hev⟩
    have hp := List.of_mem_filter hef
    simp only [Bool.and_eq_true, bne_iff_ne] at hp
    exact hev ▸ hp.1

theorem strongOf_subset_keysR {riskest : RMap} {u v : Nat}
    (h : v ∈ strongOf riskest u) : v ∈ riskest.map Prod.fst := by
  unfold strongOf at h
  cases hl : lookupR riskest u with
  | none => rw [hl] at h; cases h
  | some t =>
    rw [hl] at h
    rcases List.mem_map.mp h with ⟨e, hef, hev⟩
    exact List.mem_map.mpr ⟨e, List.mem_of_mem_filter hef, hev⟩

theorem ne_of_mem_weakOf {pop : Pop} {riskest : RMap} {u v : Nat}
    (h : v ∈ weakOf pop riskest u) : v ≠ u :=
  (mem_weakOf_iff.mp h).1

theorem weakOf_subset_keys {pop : Pop} {riskest : RMap} {u v : Nat}
    (h : v ∈ weakOf pop riskest u) : v ∈ keys pop := by
  rcases mem_weakOf_iff.mp h with ⟨-, t, d, -, hm, -, -⟩
  exact List.mem_map.mpr ⟨(v, d), hm, rfl⟩

theorem rel_mem_keys {pop : Pop} {riskest : RMap}
    (hsub : ∀ e ∈ riskest, e.1 ∈ keys pop) {u uj : Nat}
    (h : uj ∈ strongOf riskest u ∨ uj ∈ weakOf pop riskest u) :
    uj ∈ keys pop := by
  cases h with
  | inl h =>
    rcases List.mem_map.mp (strongOf_subset_keysR h) with ⟨e, he, hu⟩
    exact hu ▸ hsub e he
  | inr h => exact weakOf_subset_keys h

theorem rel_idx_facts {pop : Pop} {riskest : RMap}
    (hk : (keys pop).Nodup) (hsub : ∀ e ∈ riskest, e.1 ∈ keys pop)
    {i : Nat} (hi : i < pop.length) {uj : Nat}
    (h : uj ∈ strongOf riskest (idx2uid pop i) ∨
         uj ∈ weakOf pop riskest (idx2uid pop i)) :
    uid2idx pop uj < pop.length ∧ uid2idx pop uj ≠ i := by
  have hujk : uj ∈ keys pop := rel_mem_keys hsub h
  have hne : uj ≠ idx2uid pop i := by
    cases h with
    | inl h => exact ne_of_mem_strongOf h
    | inr h => exact ne_of_mem_weakOf h
  refine ⟨uid2idx_lt hujk, ?_⟩
  intro hidx
  have := congrArg (idx2uid pop) hidx
  rw [idx2uid_uid2idx hujk] at this
  exact hne this

/-! Cell-level characterizations of the two inner-loop bodies. -/

theorem stepStrong_fst_apply (pop : Pop) (epsl : Nat → ℚ) (i uj : Nat)
    (M : Mat × Mat) (a b : Nat) :
    (stepStrong pop epsl i M uj).1 a b =
      if a = uid2idx pop uj ∧ b = i then -1
      else if a = i ∧ b = uid2idx pop uj then -1
      else if a = uid2idx pop uj ∧ b = uid2idx pop uj then
        (if a = i ∧ b = i then M.1 a b + 1/2 else M.1 a b) + 1/2
      else if a = i ∧ b = i then M.1 a b + 1/2
      else M.1 a b := by
  simp only [stepStrong, mset, madd]

theorem stepStrong_snd_apply (pop : Pop) (epsl : Nat → ℚ) (i uj : Nat)
    (M : Mat × Mat) (a b : Nat) :
    (stepStrong pop epsl i M uj).2 a b =
      if a = uid2idx pop uj ∧ b = i then -(epsl (idx2uid pop (uid2idx pop uj)))
      else if a = i ∧ b = uid2idx pop uj then -(epsl (idx2uid pop i))
      else M.2 a b := by
  simp only [stepStrong, mset, madd]

theorem stepWeak_fst_apply (pop : Pop) (epsl : Nat → ℚ) (theta : ℚ)
    (i uj : Nat) (M : Mat × Mat) (a b : Nat) :
    (stepWeak pop epsl theta i M uj).1 a b =
      if a = uid2idx pop uj ∧ b = i then -1
      else if a = i ∧ b = uid2idx pop uj then -1
      else if a = uid2idx pop uj ∧ b = uid2idx pop uj then
        (if a = i ∧ b = i then M.1 a b + 1 else M.1 a b) + 1
      else if a = i ∧ b = i then M.1 a b + 1
      else M.1 a b := by
  simp only [stepWeak, mset, madd]

theorem stepWeak_snd_apply (pop : Pop) (epsl : Nat → ℚ) (theta : ℚ)
    (i uj : Nat) (M : Mat × Mat) (a b : Nat) :
    (stepWeak pop epsl theta i M uj).2 a b =
      if a = uid2idx pop uj ∧ b = i then 0
      else if a = i ∧ b = uid2idx pop uj then -(epsl (idx2uid pop i)) * theta
      else M.2 a b := by
  simp only [stepWeak, mset, madd]

/-! The `mat_L` part of the build does not depend on the budgets or θ. -/

theorem buildLR_fst_eq (pop : Pop) (riskest : RMap) (e1 e2 : Nat → ℚ)
    (t1 t2 : ℚ) :
    (buildLR pop riskest e1 t1).1 = (buildLR pop riskest e2 t2).1 := by
  unfold buildLR
  refine foldl_rel (fun (M N : Mat × Mat) => M.1 = N.1) _ _ _ _ _ rfl ?_
  intro M N i _ h
  unfold outerStep
  refine foldl_rel (fun (M N : Mat × Mat) => M.1 = N.1) _ _ _ _ _ ?_ ?_
  · refine foldl_rel (fun (M N : Mat × Mat) => M.1 = N.1) _ _ _ _ _ h ?_
    intro M N a _ hMN
    funext x y
    rw [stepStrong_fst_apply, stepStrong_fst_apply, hMN]
  · intro M N a _ hMN
    funext x y
    rw [stepWeak_fst_apply, stepWeak_fst_apply, hMN]

/-! Pointwise ordering of `mat_R` under pointwise-ordered budgets. -/

theorem buildLR_pair (pop : Pop) (riskest : RMap) {e1 e2 : Nat → ℚ}
    {theta : ℚ} (he : ∀ w, e1 w ≤ e2 w) (ht : 0 ≤ theta) :
    ∀ a b, a ≠ b →
      (buildLR pop riskest e2 theta).2 a b ≤ (buildLR pop riskest e1 theta).2 a b := by
  unfold buildLR
  refine foldl_rel
    (fun (M N : Mat × Mat) => ∀ a b, a ≠ b → N.2 a b ≤ M.2 a b) _ _ _ _ _ ?_ ?_
  · intro a b _
    exact neg_le_neg (he _)
  · intro M N i _ h
    unfold outerStep
    refine foldl_rel (fun (M N : Mat × Mat) => ∀ a b, a ≠ b → N.2 a b ≤ M.2 a b) _ _ _ _ _ ?_ ?_
    · refine foldl_rel (fun (M N : Mat × Mat) => ∀ a b, a ≠ b → N.2 a b ≤ M.2 a b) _ _ _ _ _ h ?_
      intro M N a _ hMN x y hxy
      rw [stepStrong_snd_apply, stepStrong_snd_apply]
      split_ifs with h1 h2
      · exact neg_le_neg (he _)
      · exact neg_le_neg (he _)
      · exact hMN x y hxy
    · intro M N a _ hMN x y hxy
      rw [stepWeak_snd_apply, stepWeak_snd_apply]
      split_ifs with h1 h2
      · exact le_refl 0
      · exact mul_le_mul_of_nonneg_right (neg_le_neg (he _)) ht
      · exact hMN x y hxy

/-! Sign facts about the finished `mat_L`. -/

theorem buildLR_sign (pop : Pop) (riskest : RMap) (epsl : Nat → ℚ)
    (theta : ℚ) (hk : (keys pop).Nodup)
    (hsub : ∀ e ∈ riskest, e.1 ∈ keys pop) :
    (∀ a b, a ≠ b → (buildLR pop riskest epsl theta).1 a b ≤ 0) ∧
    (∀ a, 0 ≤ (buildLR pop riskest epsl theta).1 a a) := by
  unfold buildLR
  refine foldl_inv
    (fun (M : Mat × Mat) =>
      (∀ a b, a ≠ b → M.1 a b ≤ 0) ∧ (∀ a, 0 ≤ M.1 a a)) _ _ _
    ⟨fun a b _ => le_refl 0, fun a => le_refl 0⟩ ?_
  intro M i hi hM
  have hilt : i < pop.length := List.mem_range.mp hi
  unfold outerStep
  refine foldl_inv
    (fun (M : Mat × Mat) =>
      (∀ a b, a ≠ b → M.1 a b ≤ 0) ∧ (∀ a, 0 ≤ M.1 a a)) _ _ _
    (foldl_inv
      (fun (M : Mat × Mat) =>
        (∀ a b, a ≠ b → M.1 a b ≤ 0) ∧ (∀ a, 0 ≤ M.1 a a)) _ _ _ hM ?_) ?_
  · intro M uj huj hM
    have hfacts := rel_idx_facts hk hsub hilt (Or.inl huj)
    constructor
    · intro a b hab
      rw [stepStrong_fst_apply]
      split_ifs with h1 h2 h3 h4 h5
      · norm_num
      · norm_num
      · exact absurd (h3.1.trans h3.2.symm) hab
      · exact absurd (h3.1.trans h3.2.symm) hab
      · exact absurd (h5.1.trans h5.2.symm) hab
      · exact hM.1 a b hab
    · intro a
      rw [stepStrong_fst_apply]
      split_ifs with h1 h2 h3 h4 h5
      · exact absurd (h1.1.symm.trans h1.2) hfacts.2
      · exact absurd (h2.2.symm.trans h2.1) hfacts.2
      · exact add_nonneg (add_nonneg (hM.2 a) (by norm_num)) (by norm_num)
      · exact add_nonneg (hM.2 a) (by norm_num)
      · exact add_nonneg (hM.2 a) (by norm_num)
      · exact hM.2 a
  · intro M uj huj hM
    have hfacts := rel_idx_facts hk hsub hilt (Or.inr huj)
    constructor
    · intro a b hab
      rw [stepWeak_fst_apply]
      split_ifs with h1 h2 h3 h4 h5
      · norm_num
      · norm_num
      · exact absurd (h3.1.trans h3.2.symm) hab
      · exact absurd (h3.1.trans h3.2.symm) hab
      · exact absurd (h5.1.trans h5.2.symm) hab
      · exact hM.1 a b hab
    · intro a
      rw [stepWeak_fst_apply]
      split_ifs with h1 h2 h3 h4 h5
      · exact absurd (h1.1.symm.trans h1.2) hfacts.2
      · exact absurd (h2.2.symm.trans h2.1) hfacts.2
      · exact add_nonneg (add_nonneg (hM.2 a) (by norm_num)) (by norm_num)
      · exact add_nonneg (hM.2 a) (by norm_num)
      · exact add_nonneg (hM.2 a) (by norm_num)
      · exact hM.2 a

/-! A user with no relation in either direction has an all-zero `mat_L`
row: nothing in the loops ever writes into it. -/

theorem buildLR_row_zero (pop : Pop) (riskest : RMap) (epsl : Nat → ℚ)
    (theta : ℚ) (hk : (keys pop).Nodup)
    (hsub : ∀ e ∈ riskest, e.1 ∈ keys pop) {u : Nat} (hu : u ∈ keys pop)
    (hs : strongOf riskest u = []) (hw : weakOf pop riskest u = [])
    (hsin : ∀ w ∈ keys pop, u ∉ strongOf riskest w)
    (hwin : ∀ w ∈ keys pop, u ∉ weakOf pop riskest w) :
    ∀ b, (buildLR pop riskest epsl theta).1 (uid2idx pop u) b = 0 := by
  unfold buildLR
  refine foldl_inv
    (fun (M : Mat × Mat) => ∀ b, M.1 (uid2idx pop u) b = 0) _ _ _
    (fun b => rfl) ?_
  intro M i hi hM
  have hilt : i < pop.length := List.mem_range.mp hi
  by_cases hia : i = uid2idx pop u
  · have hui : idx2uid pop i = u := by rw [hia, idx2uid_uid2idx hu]
    unfold outerStep
    rw [hui, hs, hw]
    simpa using hM
  · unfold outerStep
    refine foldl_inv
      (fun (M : Mat × Mat) => ∀ b, M.1 (uid2idx pop u) b = 0) _ _ _
      (foldl_inv
        (fun (M : Mat × Mat) => ∀ b, M.1 (uid2idx pop u) b = 0) _ _ _ hM ?_) ?_
    · intro M uj huj hM b
      have hjne : uid2idx pop uj ≠ uid2idx pop u := by
        intro hj
        have hujk : uj ∈ keys pop := rel_mem_keys hsub (Or.inl huj)
        have huju : uj = u := by
          have := congrArg (idx2uid pop) hj
          rwa [idx2uid_uid2idx hujk, idx2uid_uid2idx hu] at this
        exact hsin (idx2uid pop i) (idx2uid_mem hilt) (huju ▸ huj)
      rw [stepStrong_fst_apply]
      split_ifs with h1 h2 h3 h4 h5
      · exact absurd h1.1.symm hjne
      · exact absurd h2.1.symm hia
      · exact absurd h3.1.symm hjne
      · exact absurd h3.1.symm hjne
      · exact absurd h5.1.symm hia
      · exact hM b
    · intro M uj huj hM b
      have hjne : uid2idx pop uj ≠ uid2idx pop u := by
        intro hj
        have hujk : uj ∈ keys pop := rel_mem_keys hsub (Or.inr huj)
        have huju : uj = u := by
          have := congrArg (idx2uid pop) hj
          rwa [idx2uid_uid2idx hujk, idx2uid_uid2idx hu] at this
        exact hwin (idx2uid pop i) (idx2uid_mem hilt) (huju ▸ huj)
      rw [stepWeak_fst_apply]
      split_ifs with h1 h2 h3 h4 h5
      · exact absurd h1.1.symm hjne
      · exact absurd h2.1.symm hia
      · exact absurd h3.1.symm hjne
      · exact absurd h3.1.symm hjne
      · exact absurd h5.1.symm hia
      · exact hM b

/-! Characterization of the diagonal pass. -/

theorem fixDiag_fold_apply (pop : Pop) (epsl : Nat → ℚ) (L : Mat)
    (l : List Nat) (R : Mat) (a b : Nat) :
    (l.foldl (fun Racc i =>
        if L i i ≠ 0 then mset Racc i i (epsl (idx2uid pop i) / L i i)
        else Racc) R) a b
      = if a = b ∧ a ∈ l ∧ L a a ≠ 0 then epsl (idx2uid pop a) / L a a
        else R a b := by
  induction l generalizing R with
  | nil => simp
  | cons i l ih =>
    rw [List.foldl_cons, ih]
    by_cases h1 : a = b ∧ a ∈ l ∧ L a a ≠ 0
    · rw [if_pos h1, if_pos ⟨h1.1, List.mem_cons_of_mem i h1.2.1, h1.2.2⟩]
    · rw [if_neg h1]
      by_cases h2 : a = b ∧ a = i ∧ L a a ≠ 0
      · have hLi : L i i ≠ 0 := h2.2.1 ▸ h2.2.2
        rw [if_pos hLi]
        have hcell : a = i ∧ b = i := ⟨h2.2.1, h2.1 ▸ h2.2.1⟩
        simp only [mset, if_pos hcell]
        rw [if_pos ⟨h2.1, by rw [h2.2.1]; exact List.mem_cons_self i l, h2.2.2⟩]
        rw [h2.2.1]
      · have hcond : ¬(a = b ∧ a ∈ i :: l ∧ L a a ≠ 0) := by
          rintro ⟨hab, hmem, hL⟩
          rcases List.mem_cons.mp hmem with hai | hal
          · exact h2 ⟨hab, hai, hL⟩
          · exact h1 ⟨hab, hal, hL⟩
        rw [if_neg hcond]
        by_cases hLi : L i i ≠ 0
        · rw [if_pos hLi]
          have hcell : ¬(a = i ∧ b = i) := by
            rintro ⟨hai, hbi⟩
            exact h2 ⟨hai.trans hbi.symm, hai, hai ▸ hLi⟩
          simp only [mset, if_neg hcell]
        · rw [if_neg hLi]

theorem fixDiag_apply (pop : Pop) (epsl : Nat → ℚ) (L R : Mat) (a b : Nat) :
    fixDiag pop epsl L R a b
      = if a = b ∧ a < pop.length ∧ L a a ≠ 0
        then epsl (idx2uid pop a) / L a a else R a b := by
  unfold fixDiag
  rw [fixDiag_fold_apply]
  simp [List.mem_range]

/-! Summation helpers and the row value of the solver. -/

theorem sum_le_sum_of_single (l : List Nat) (hnd : l.Nodup) {i : Nat}
    (hi : i ∈ l) (f g : Nat → ℚ) (h : ∀ j ∈ l, j ≠ i → f j ≤ g j) :
    (l.map f).sum + (g i - f i) ≤ (l.map g).sum := by
  rcases List.append_of_mem hi with ⟨s, t, rfl⟩
  have hns : i ∉ s := by
    intro hmem
    rcases List.nodup_append.mp hnd with ⟨-, -, hdisj⟩
    exact hdisj hmem (List.mem_cons_self i t)
  have hnt : i ∉ t := by
    rcases List.nodup_append.mp hnd with ⟨-, hcons, -⟩
    exact (List.nodup_cons.mp hcons).1
  have hsle : (s.map f).sum ≤ (s.map g).sum := by
    refine List.sum_le_sum ?_
    intro j hj
    exact h j (List.mem_append_left _ hj)
      (fun hji => hns (hji ▸ hj))
  have htle : (t.map f).sum ≤ (t.map g).sum := by
    refine List.sum_le_sum ?_
    intro j hj
    exact h j (List.mem_append_right _ (List.mem_cons_of_mem i hj))
      (fun hji => hnt (hji ▸ hj))
  simp only [List.map_append, List.sum_append, List.map_cons, List.sum_cons]
  linarith

theorem cidpMats_fst (pop : Pop) (riskest : RMap) (epsl : Nat → ℚ)
    (theta : ℚ) :
    (cidpMats pop riskest epsl theta).1 = (buildLR pop riskest epsl theta).1 :=
  rfl

theorem cidpMats_snd (pop : Pop) (riskest : RMap) (epsl : Nat → ℚ)
    (theta : ℚ) :
    (cidpMats pop riskest epsl theta).2 =
      fixDiag pop epsl (buildLR pop riskest epsl theta).1
        (buildLR pop riskest epsl theta).2 :=
  rfl

/-- Monotonicity of one solver row in the budget vector. -/
theorem cidpRow_mono (pop : Pop) (riskest : RMap) {e1 e2 : Nat → ℚ}
    {theta : ℚ} (hk : (keys pop).Nodup)
    (hsub : ∀ e ∈ riskest, e.1 ∈ keys pop) (ht : 0 ≤ theta)
    (he : ∀ w, e1 w ≤ e2 w) (i : Nat) :
    cidpRow pop riskest e1 theta i ≤ cidpRow pop riskest e2 theta i := by
  have hL := buildLR_fst_eq pop riskest e2 e1 theta theta
  have hsig := buildLR_sign pop riskest e1 theta hk hsub
  have hpair := buildLR_pair pop riskest he ht
  unfold cidpRow
  simp only [cidpMats_fst, cidpMats_snd]
  refine List.sum_le_sum ?_
  intro j hj
  have hjlt := List.mem_range.mp hj
  rw [hL]
  by_cases hji : j = i
  · subst hji
    rw [fixDiag_apply, fixDiag_apply]
    by_cases hLd : (buildLR pop riskest e1 theta).1 j j ≠ 0
    · rw [if_pos ⟨rfl, hjlt, hLd⟩, if_pos ⟨rfl, hjlt, hLd⟩,
        mul_div_cancel₀ _ hLd, mul_div_cancel₀ _ hLd]
      exact he _
    · push_neg at hLd
      rw [hLd, zero_mul, zero_mul]
  · rw [fixDiag_apply, fixDiag_apply]
    rw [if_neg (fun hx => hji hx.1), if_neg (fun hx => hji hx.1)]
    exact mul_le_mul_of_nonpos_left (hpair j i hji)
      (hsig.1 i j (fun hx => hji hx.symm))

/-- Exact budget shift through the diagonal: when the relation-weighted
degree of row `i` is nonzero, raising the budgets raises the row value by
at least the raise of `ε_i` itself. -/
theorem cidpRow_shift (pop : Pop) (riskest : RMap) {e1 e2 : Nat → ℚ}
    {theta : ℚ} (hk : (keys pop).Nodup)
    (hsub : ∀ e ∈ riskest, e.1 ∈ keys pop) (ht : 0 ≤ theta)
    (he : ∀ w, e1 w ≤ e2 w) {i : Nat} (hi : i < pop.length)
    (hLd : (buildLR pop riskest e1 theta).1 i i ≠ 0) :
    cidpRow pop riskest e1 theta i
        + (e2 (idx2uid pop i) - e1 (idx2uid pop i))
      ≤ cidpRow pop riskest e2 theta i := by
  have hL := buildLR_fst_eq pop riskest e2 e1 theta theta
  have hsig := buildLR_sign pop riskest e1 theta hk hsub
  have hpair := buildLR_pair pop riskest he ht
  unfold cidpRow
  simp only [cidpMats_fst, cidpMats_snd]
  have hdiag1 :
      (buildLR pop riskest e1 theta).1 i i *
        fixDiag pop e1 (buildLR pop riskest e1 theta).1
          (buildLR pop riskest e1 theta).2 i i = e1 (idx2uid pop i) := by
    rw [fixDiag_apply, if_pos ⟨rfl, hi, hLd⟩, mul_div_cancel₀ _ hLd]
  have hdiag2 :
      (buildLR pop riskest e2 theta).1 i i *
        fixDiag pop e2 (buildLR pop riskest e2 theta).1
          (buildLR pop riskest e2 theta).2 i i = e2 (idx2uid pop i) := by
    rw [hL, fixDiag_apply, if_pos ⟨rfl, hi, hLd⟩, mul_div_cancel₀ _ hLd]
  have hoff : ∀ j ∈ List.range pop.length, j ≠ i →
      (buildLR pop riskest e1 theta).1 i j *
        fixDiag pop e1 (buildLR pop riskest e1 theta).1
          (buildLR pop riskest e1 theta).2 j i ≤
      (buildLR pop riskest e2 theta).1 i j *
        fixDiag pop e2 (buildLR pop riskest e2 theta).1
          (buildLR pop riskest e2 theta).2 j i := by
    intro j hjmem hji
    rw [hL, fixDiag_apply, fixDiag_apply]
    rw [if_neg (fun hx => hji hx.1), if_neg (fun hx => hji hx.1)]
    exact mul_le_mul_of_nonpos_left (hpair j i hji)
      (hsig.1 i j (fun hx => hji hx.symm))
  have hmain := sum_le_sum_of_single (List.range pop.length)
    (List.nodup_range _) (List.mem_range.mpr hi)
    (fun j => (buildLR pop riskest e1 theta).1 i j *
      fixDiag pop e1 (buildLR pop riskest e1 theta).1
        (buildLR pop riskest e1 theta).2 j i)
    (fun j => (buildLR pop riskest e2 theta).1 i j *
      fixDiag pop e2 (buildLR pop riskest e2 theta).1
        (buildLR pop riskest e2 theta).2 j i) hoff
  beta_reduce at hmain
  rw [hdiag1, hdiag2] at hmain
  exact hmain

/-- A user with no relation in either direction gets solver row value 0. -/
theorem cidpRow_isolated (pop : Pop) (riskest : RMap) (epsl : Nat → ℚ)
    (theta : ℚ) (hk : (keys pop).Nodup)
    (hsub : ∀ e ∈ riskest, e.1 ∈ keys pop) {u : Nat} (hu : u ∈ keys pop)
    (hs : strongOf riskest u = []) (hw : weakOf pop riskest u = [])
    (hsin : ∀ w ∈ keys pop, u ∉ strongOf riskest w)
    (hwin : ∀ w ∈ keys pop, u ∉ weakOf pop riskest w) :
    cidpRow pop riskest epsl theta (uid2idx pop u) = 0 := by
  have hrow := buildLR_row_zero pop riskest epsl theta hk hsub hu hs hw hsin hwin
  unfold cidpRow
  simp only [cidpMats_fst, cidpMats_snd]
  refine List.sum_eq_zero ?_
  intro x hx
  rcases List.mem_map.mp hx with ⟨j, hj, rfl⟩
  rw [hrow j, zero_mul]

/-! The diagonal of `mat_L` only ever grows, and a related user's
diagonal entry receives at least one `0.5` contribution. -/

theorem stepStrong_diag_le (pop : Pop) (epsl : Nat → ℚ) {i uj : Nat}
    (hne : uid2idx pop uj ≠ i) (M : Mat × Mat) (a : Nat) :
    M.1 a a ≤ (stepStrong pop epsl i M uj).1 a a := by
  rw [stepStrong_fst_apply]
  split_ifs with h1 h2 h3 h4 h5
  · exact absurd (h1.1.symm.trans h1.2) hne
  · exact absurd (h2.2.symm.trans h2.1) hne
  · linarith
  · linarith
  · linarith
  · exact le_refl _

theorem stepWeak_diag_le (pop : Pop) (epsl : Nat → ℚ) (theta : ℚ)
    {i uj : Nat} (hne : uid2idx pop uj ≠ i) (M : Mat × Mat) (a : Nat) :
    M.1 a a ≤ (stepWeak pop epsl theta i M uj).1 a a := by
  rw [stepWeak_fst_apply]
  split_ifs with h1 h2 h3 h4 h5
  · exact absurd (h1.1.symm.trans h1.2) hne
  · exact absurd (h2.2.symm.trans h2.1) hne
  · linarith
  · linarith
  · linarith
  · exact le_refl _

theorem outerStep_diag_le (pop : Pop) (riskest : RMap) (epsl : Nat → ℚ)
    (theta : ℚ) (hk : (keys pop).Nodup)
    (hsub : ∀ e ∈ riskest, e.1 ∈ keys pop) {i : Nat} (hi : i < pop.length)
    (M : Mat × Mat) (a : Nat) :
    M.1 a a ≤ (outerStep pop riskest epsl theta M i).1 a a := by
  unfold outerStep
  have hstrong :
      M.1 a a ≤ ((strongOf riskest (idx2uid pop i)).foldl
        (stepStrong pop epsl i) M).1 a a := by
    refine foldl_inv (fun (N : Mat × Mat) => M.1 a a ≤ N.1 a a) _ _ _
      (le_refl _) ?_
    intro N uj huj hN
    exact le_trans hN
      (stepStrong_diag_le pop epsl
        (rel_idx_facts hk hsub hi (Or.inl huj)).2 N a)
  refine le_trans hstrong ?_
  refine foldl_inv (fun (N : Mat × Mat) =>
    ((strongOf riskest (idx2uid pop i)).foldl
      (stepStrong pop epsl i) M).1 a a ≤ N.1 a a) _ _ _ (le_refl _) ?_
  intro N uj huj hN
  exact le_trans hN
    (stepWeak_diag_le pop epsl theta
      (rel_idx_facts hk hsub hi (Or.inr huj)).2 N a)

theorem outerFold_diag_le (pop : Pop) (riskest : RMap) (epsl : Nat → ℚ)
    (theta : ℚ) (hk : (keys pop).Nodup)
    (hsub : ∀ e ∈ riskest, e.1 ∈ keys pop) {l : List Nat}
    (hl : ∀ i ∈ l, i < pop.length) (M : Mat × Mat) (a : Nat) :
    M.1 a a ≤ (l.foldl (outerStep pop riskest epsl theta) M).1 a a := by
  refine foldl_inv (fun (N : Mat × Mat) => M.1 a a ≤ N.1 a a) _ _ _
    (le_refl _) ?_
  intro N i hi hN
  exact le_trans hN (outerStep_diag_le pop riskest epsl theta hk hsub
    (hl i hi) N a)

theorem outerFold_diag_nonneg (pop : Pop) (riskest : RMap)
    (epsl : Nat → ℚ) (theta : ℚ) (hk : (keys pop).Nodup)
    (hsub : ∀ e ∈ riskest, e.1 ∈ keys pop) {l : List Nat}
    (hl : ∀ i ∈ l, i < pop.length) (a : Nat) :
    0 ≤ (l.foldl (outerStep pop riskest epsl theta)
      (initL, initR pop epsl)).1 a a :=
  outerFold_diag_le pop riskest epsl theta hk hsub hl _ a

/-- Processing a user's own outer iteration adds at least `1/2` to its
diagonal entry when it has an outgoing (strong or weak) relation. -/
theorem outerStep_self_gain (pop : Pop) (riskest : RMap) (epsl : Nat → ℚ)
    (theta : ℚ) (hk : (keys pop).Nodup)
    (hsub : ∀ e ∈ riskest, e.1 ∈ keys pop) {u : Nat} (hu : u ∈ keys pop)
    (hrel : strongOf riskest u ≠ [] ∨ weakOf pop riskest u ≠ [])
    (M : Mat × Mat) :
    M.1 (uid2idx pop u) (uid2idx pop u) + 1/2 ≤
      (outerStep pop riskest epsl theta M (uid2idx pop u)).1
        (uid2idx pop u) (uid2idx pop u) := by
  have hlt : uid2idx pop u < pop.length := uid2idx_lt hu
  have hui : idx2uid pop (uid2idx pop u) = u := idx2uid_uid2idx hu
  unfold outerStep
  rw [hui]
  cases hrel with
  | inl hne =>
    rcases List.exists_mem_of_ne_nil _ hne with ⟨v, hv⟩
    rcases List.append_of_mem hv with ⟨s, t, hsp⟩
    have hmemconv : ∀ x, x ∈ s ∨ x ∈ t → x ∈ strongOf riskest u := by
      intro x hx
      rw [hsp]
      rcases hx with hx | hx
      · exact List.mem_append_left _ hx
      · exact List.mem_append_right _ (List.mem_cons_of_mem v hx)
    have hgain : M.1 (uid2idx pop u) (uid2idx pop u) + 1/2 ≤
        ((strongOf riskest u).foldl (stepStrong pop epsl (uid2idx pop u)) M).1
          (uid2idx pop u) (uid2idx pop u) := by
      rw [hsp, List.foldl_append, List.foldl_cons]
      have hs1 : M.1 (uid2idx pop u) (uid2idx pop u) ≤
          (s.foldl (stepStrong pop epsl (uid2idx pop u)) M).1
            (uid2idx pop u) (uid2idx pop u) := by
        refine foldl_inv (fun (N : Mat × Mat) =>
          M.1 (uid2idx pop u) (uid2idx pop u) ≤
            N.1 (uid2idx pop u) (uid2idx pop u)) _ _ _ (le_refl _) ?_
        intro N x hx hN
        have hfacts := rel_idx_facts hk hsub hlt
          (Or.inl (hui ▸ hmemconv x (Or.inl hx)))
        exact le_trans hN (stepStrong_diag_le pop epsl hfacts.2 N _)
      have hfv := rel_idx_facts hk hsub hlt (Or.inl (hui ▸ hv))
      have hvstep : ∀ N : Mat × Mat,
          (stepStrong pop epsl (uid2idx pop u) N v).1
              (uid2idx pop u) (uid2idx pop u) =
            N.1 (uid2idx pop u) (uid2idx pop u) + 1/2 := by
        intro N
        rw [stepStrong_fst_apply,
          if_neg (fun hx => hfv.2 hx.1.symm),
          if_neg (fun hx => hfv.2 hx.2.symm),
          if_neg (fun hx => hfv.2 hx.1.symm),
          if_pos ⟨rfl, rfl⟩]
      have ht1 : ∀ N : Mat × Mat,
          N.1 (uid2idx pop u) (uid2idx pop u) ≤
            (t.foldl (stepStrong pop epsl (uid2idx pop u)) N).1
              (uid2idx pop u) (uid2idx pop u) := by
        intro N
        refine foldl_inv (fun (K : Mat × Mat) =>
          N.1 (uid2idx pop u) (uid2idx pop u) ≤
            K.1 (uid2idx pop u) (uid2idx pop u)) _ _ _ (le_refl _) ?_
        intro K x hx hK
        have hfacts := rel_idx_facts hk hsub hlt
          (Or.inl (hui ▸ hmemconv x (Or.inr hx)))
        exact le_trans hK (stepStrong_diag_le pop epsl hfacts.2 K _)
      calc M.1 (uid2idx pop u) (uid2idx pop u) + 1/2
          ≤ (s.foldl (stepStrong pop epsl (uid2idx pop u)) M).1
              (uid2idx pop u) (uid2idx pop u) + 1/2 := by linarith
        _ = (stepStrong pop epsl (uid2idx pop u)
              (s.foldl (stepStrong pop epsl (uid2idx pop u)) M) v).1
              (uid2idx pop u) (uid2idx pop u) := (hvstep _).symm
        _ ≤ _ := ht1 _
    refine le_trans hgain ?_
    refine foldl_inv (fun (N : Mat × Mat) =>
      ((strongOf riskest u).foldl (stepStrong pop epsl (uid2idx pop u)) M).1
          (uid2idx pop u) (uid2idx pop u) ≤
        N.1 (uid2idx pop u) (uid2idx pop u)) _ _ _ (le_refl _) ?_
    intro N x hx hN
    have hfacts := rel_idx_facts hk hsub hlt (Or.inr (hui ▸ hx))
    exact le_trans hN (stepWeak_diag_le pop epsl theta hfacts.2 N _)
  | inr hne =>
    have hs1 : M.1 (uid2idx pop u) (uid2idx pop u) ≤
        ((strongOf riskest u).foldl (stepStrong pop epsl (uid2idx pop u)) M).1
          (uid2idx pop u) (uid2idx pop u) := by
      refine foldl_inv (fun (N : Mat × Mat) =>
        M.1 (uid2idx pop u) (uid2idx pop u) ≤
          N.1 (uid2idx pop u) (uid2idx pop u)) _ _ _ (le_refl _) ?_
      intro N x hx hN
      have hfacts := rel_idx_facts hk hsub hlt (Or.inl (hui ▸ hx))
      exact le_trans hN (stepStrong_diag_le pop epsl hfacts.2 N _)
    rcases List.exists_mem_of_ne_nil _ hne with ⟨v, hv⟩
    rcases List.append_of_mem hv with ⟨s, t, hsp⟩
    have hmemconv : ∀ x, x ∈ s ∨ x ∈ t → x ∈ weakOf pop riskest u := by
      intro x hx
      rw [hsp]
      rcases hx with hx | hx
      · exact List.mem_append_left _ hx
      · exact List.mem_append_right _ (List.mem_cons_of_mem v hx)
    set M0 := (strongOf riskest u).foldl (stepStrong pop epsl (uid2idx pop u)) M
      with hM0
    rw [hsp, List.foldl_append, List.foldl_cons]
    have hs2 : M0.1 (uid2idx pop u) (uid2idx pop u) ≤
        (s.foldl (stepWeak pop epsl theta (uid2idx pop u)) M0).1
          (uid2idx pop u) (uid2idx pop u) := by
      refine foldl_inv (fun (N : Mat × Mat) =>
        M0.1 (uid2idx pop u) (uid2idx pop u) ≤
          N.1 (uid2idx pop u) (uid2idx pop u)) _ _ _ (le_refl _) ?_
      intro N x hx hN
      have hfacts := rel_idx_facts hk hsub hlt
        (Or.inr (hui ▸ hmemconv x (Or.inl hx)))
      exact le_trans hN (stepWeak_diag_le pop epsl theta hfacts.2 N _)
    have hfv := rel_idx_facts hk hsub hlt (Or.inr (hui ▸ hv))
    have hvstep : ∀ N : Mat × Mat,
        (stepWeak pop epsl theta (uid2idx pop u) N v).1
            (uid2idx pop u) (uid2idx pop u) =
          N.1 (uid2idx pop u) (uid2idx pop u) + 1 := by
      intro N
      rw [stepWeak_fst_apply,
        if_neg (fun hx => hfv.2 hx.1.symm),
        if_neg (fun hx => hfv.2 hx.2.symm),
        if_neg (fun hx => hfv.2 hx.1.symm),
        if_pos ⟨rfl, rfl⟩]
    have ht1 : ∀ N : Mat × Mat,
        N.1 (uid2idx pop u) (uid2idx pop u) ≤
          (t.foldl (stepWeak pop epsl theta (uid2idx pop u)) N).1
            (uid2idx pop u) (uid2idx pop u) := by
      intro N
      refine foldl_inv (fun (K : Mat × Mat) =>
        N.1 (uid2idx pop u) (uid2idx pop u) ≤
          K.1 (uid2idx pop u) (uid2idx pop u)) _ _ _ (le_refl _) ?_
      intro K x hx hK
      have hfacts := rel_idx_facts hk hsub hlt
        (Or.inr (hui ▸ hmemconv x (Or.inr hx)))
      exact le_trans hK (stepWeak_diag_le pop epsl theta hfacts.2 K _)
    calc M.1 (uid2idx pop u) (uid2idx pop u) + 1/2
        ≤ M0.1 (uid2idx pop u) (uid2idx pop u) + 1/2 := by linarith
      _ ≤ (s.foldl (stepWeak pop epsl theta (uid2idx pop u)) M0).1
            (uid2idx pop u) (uid2idx pop u) + 1/2 := by linarith
      _ ≤ (s.foldl (stepWeak pop epsl theta (uid2idx pop u)) M0).1
            (uid2idx pop u) (uid2idx pop u) + 1 := by linarith
      _ = (stepWeak pop epsl theta (uid2idx pop u)
            (s.foldl (stepWeak pop epsl theta (uid2idx pop u)) M0) v).1
            (uid2idx pop u) (uid2idx pop u) := (hvstep _).symm
      _ ≤ _ := ht1 _

/-- Processing the outer iteration of a user `w` whose weak relation
points at `u` adds at least `1/2` to `u`'s diagonal entry. -/
theorem outerStep_in_gain (pop : Pop) (riskest : RMap) (epsl : Nat → ℚ)
    (theta : ℚ) (hk : (keys pop).Nodup)
    (hsub : ∀ e ∈ riskest, e.1 ∈ keys pop) {u w : Nat} (hu : u ∈ keys pop)
    (hw : w ∈ keys pop) (huw : u ∈ weakOf pop riskest w) (M : Mat × Mat) :
    M.1 (uid2idx pop u) (uid2idx pop u) + 1/2 ≤
      (outerStep pop riskest epsl theta M (uid2idx pop w)).1
        (uid2idx pop u) (uid2idx pop u) := by
  have hwlt : uid2idx pop w < pop.length := uid2idx_lt hw
  have hwi : idx2uid pop (uid2idx pop w) = w := idx2uid_uid2idx hw
  have hneu : u ≠ w := ne_of_mem_weakOf huw
  have hia : uid2idx pop w ≠ uid2idx pop u := by
    intro h
    exact hneu ((List.indexOf_inj (mem_sortedKeys.mpr hu)
      (mem_sortedKeys.mpr hw)).mp h.symm)
  unfold outerStep
  rw [hwi]
  have hs1 : M.1 (uid2idx pop u) (uid2idx pop u) ≤
      ((strongOf riskest w).foldl (stepStrong pop epsl (uid2idx pop w)) M).1
        (uid2idx pop u) (uid2idx pop u) := by
    refine foldl_inv (fun (N : Mat × Mat) =>
      M.1 (uid2idx pop u) (uid2idx pop u) ≤
        N.1 (uid2idx pop u) (uid2idx pop u)) _ _ _ (le_refl _) ?_
    intro N x hx hN
    have hfacts := rel_idx_facts hk hsub hwlt (Or.inl (hwi ▸ hx))
    exact le_trans hN (stepStrong_diag_le pop epsl hfacts.2 N _)
  rcases List.append_of_mem huw with ⟨s, t, hsp⟩
  have hmemconv : ∀ x, x ∈ s ∨ x ∈ t → x ∈ weakOf pop riskest w := by
    intro x hx
    rw [hsp]
    rcases hx with hx | hx
    · exact List.mem_append_left _ hx
    · exact List.mem_append_right _ (List.mem_cons_of_mem u hx)
  set M0 := (strongOf riskest w).foldl (stepStrong pop epsl (uid2idx pop w)) M
    with hM0
  rw [hsp, List.foldl_append, List.foldl_cons]
  have hs2 : M0.1 (uid2idx pop u) (uid2idx pop u) ≤
      (s.foldl (stepWeak pop epsl theta (uid2idx pop w)) M0).1
        (uid2idx pop u) (uid2idx pop u) := by
    refine foldl_inv (fun (N : Mat × Mat) =>
      M0.1 (uid2idx pop u) (uid2idx pop u) ≤
        N.1 (uid2idx pop u) (uid2idx pop u)) _ _ _ (le_refl _) ?_
    intro N x hx hN
    have hfacts := rel_idx_facts hk hsub hwlt
      (Or.inr (hwi ▸ hmemconv x (Or.inl hx)))
    exact le_trans hN (stepWeak_diag_le pop epsl theta hfacts.2 N _)
  have hustep : ∀ N : Mat × Mat,
      (stepWeak pop epsl theta (uid2idx pop w) N u).1
          (uid2idx pop u) (uid2idx pop u) =
        N.1 (uid2idx pop u) (uid2idx pop u) + 1 := by
    intro N
    rw [stepWeak_fst_apply,
      if_neg (fun hx => hia hx.2.symm),
      if_neg (fun hx => hia hx.1.symm),
      if_pos ⟨rfl, rfl⟩,
      if_neg (fun hx => hia hx.1.symm)]
  have ht1 : ∀ N : Mat × Mat,
      N.1 (uid2idx pop u) (uid2idx pop u) ≤
        (t.foldl (stepWeak pop epsl theta (uid2idx pop w)) N).1
          (uid2idx pop u) (uid2idx pop u) := by
    intro N
    refine foldl_inv (fun (K : Mat × Mat) =>
      N.1 (uid2idx pop u) (uid2idx pop u) ≤
        K.1 (uid2idx pop u) (uid2idx pop u)) _ _ _ (le_refl _) ?_
    intro K x hx hK
    have hfacts := rel_idx_facts hk hsub hwlt
      (Or.inr (hwi ▸ hmemconv x (Or.inr hx)))
    exact le_trans hK (stepWeak_diag_le pop epsl theta hfacts.2 K _)
  calc M.1 (uid2idx pop u) (uid2idx pop u) + 1/2
      ≤ M0.1 (uid2idx pop u) (uid2idx pop u) + 1/2 := by linarith
    _ ≤ (s.foldl (stepWeak pop epsl theta (uid2idx pop w)) M0).1
          (uid2idx pop u) (uid2idx pop u) + 1/2 := by linarith
    _ ≤ (s.foldl (stepWeak pop epsl theta (uid2idx pop w)) M0).1
          (uid2idx pop u) (uid2idx pop u) + 1 := by linarith
    _ = (stepWeak pop epsl theta (uid2idx pop w)
          (s.foldl (stepWeak pop epsl theta (uid2idx pop w)) M0) u).1
          (uid2idx pop u) (uid2idx pop u) := (hustep _).symm
    _ ≤ _ := ht1 _

/-- A related user's finished diagonal entry is at least `1/2`. -/
theorem buildLR_diag_half (pop : Pop) (riskest : RMap) (epsl : Nat → ℚ)
    (theta : ℚ) (hk : (keys pop).Nodup)
    (hsub : ∀ e ∈ riskest, e.1 ∈ keys pop) {u : Nat} (hu : u ∈ keys pop)
    (hrel : hasRel pop riskest u) :
    1/2 ≤ (buildLR pop riskest epsl theta).1
      (uid2idx pop u) (uid2idx pop u) := by
  obtain ⟨istar, histar, hgain⟩ :
      ∃ i, i < pop.length ∧ ∀ M : Mat × Mat,
        M.1 (uid2idx pop u) (uid2idx pop u) + 1/2 ≤
          (outerStep pop riskest epsl theta M i).1
            (uid2idx pop u) (uid2idx pop u) := by
    rcases hrel with h | h | ⟨w, hw, hws⟩
    · exact ⟨uid2idx pop u, uid2idx_lt hu,
        fun M => outerStep_self_gain pop riskest epsl theta hk hsub hu
          (Or.inl h) M⟩
    · exact ⟨uid2idx pop u, uid2idx_lt hu,
        fun M => outerStep_self_gain pop riskest epsl theta hk hsub hu
          (Or.inr h) M⟩
    · exact ⟨uid2idx pop w, uid2idx_lt hw,
        fun M => outerStep_in_gain pop riskest epsl theta hk hsub hu hw
          hws M⟩
  rcases List.append_of_mem (List.mem_range.mpr histar) with ⟨l1, l2, hsp⟩
  have hl1 : ∀ i ∈ l1, i < pop.length := by
    intro i hi
    have : i ∈ List.range pop.length := by
      rw [hsp]; exact List.mem_append_left _ hi
    exact List.mem_range.mp this
  have hl2 : ∀ i ∈ l2, i < pop.length := by
    intro i hi
    have : i ∈ List.range pop.length := by
      rw [hsp]; exact List.mem_append_right _ (List.mem_cons_of_mem istar hi)
    exact List.mem_range.mp this
  unfold buildLR
  rw [hsp, List.foldl_append, List.foldl_cons]
  have h0 := outerFold_diag_nonneg pop riskest epsl theta hk hsub hl1
    (uid2idx pop u)
  have hg := hgain (l1.foldl (outerStep pop riskest epsl theta)
    (initL, initR pop epsl))
  have hrest := outerFold_diag_le pop riskest epsl theta hk hsub hl2
    (outerStep pop riskest epsl theta
      (l1.foldl (outerStep pop riskest epsl theta)
        (initL, initR pop epsl)) istar) (uid2idx pop u)
  linarith

/-! Bridging dict lookup on the solver result to the row value. -/

theorem find?_eq_some_of_unique {l : List Nat} {p : Nat → Bool} {x : Nat}
    (hx : x ∈ l) (hp : p x = true)
    (huniq : ∀ y ∈ l, p y = true → y = x) : l.find? p = some x := by
  induction l with
  | nil => cases hx
  | cons a l ih =>
    by_cases hpa : p a = true
    · rw [List.find?_cons_of_pos _ hpa, huniq a (List.mem_cons_self a l) hpa]
    · have hxl : x ∈ l := by
        rcases List.mem_cons.mp hx with h | h
        · subst h; exact absurd hp hpa
        · exact h
      rw [List.find?_cons_of_neg _ hpa]
      exact ih hxl (fun y hy hpy => huniq y (List.mem_cons_of_mem a hy) hpy)

theorem dlookup_compute_CIDP (pop : Pop) (riskest : RMap) (epsl : Nat → ℚ)
    (theta : ℚ) (hk : (keys pop).Nodup) {u : Nat} (hu : u ∈ keys pop) :
    dlookup (compute_CIDP pop riskest epsl theta) u =
      cidpRow pop riskest epsl theta (uid2idx pop u) := by
  unfold dlookup compute_CIDP
  rw [List.find?_map]
  have hfind : (List.range pop.length).find?
      ((fun (e : Nat × ℚ) => e.1 == u) ∘
        (fun i => (idx2uid pop i, cidpRow pop riskest epsl theta i)))
      = some (uid2idx pop u) := by
    refine find?_eq_some_of_unique
      (List.mem_range.mpr (uid2idx_lt hu)) ?_ ?_
    · simp [idx2uid_uid2idx hu]
    · intro y hy hpy
      simp only [Function.comp, beq_iff_eq] at hpy
      rw [← hpy, uid2idx_idx2uid hk (List.mem_range.mp hy)]
  rw [hfind]
  rfl

/-- C1 counterexample: in a one-user population (no relations at all) with
budget `ε ≡ 1`, the solver returns disclosure `0` for the user, not
`ε_u = 1` as the specification claims. -/
theorem compute_CIDP_no_relations_cex :
    dlookup (compute_CIDP soloPop soloRisk (fun _ => (1:ℚ)) (1/4)) 1 = 0 ∧
    dlookup (compute_CIDP soloPop soloRisk (fun _ => (1:ℚ)) (1/4)) 1 ≠ 1 := by
  have h : dlookup (compute_CIDP soloPop soloRisk (fun _ => (1:ℚ)) (1/4)) 1
      = 0 := by
    simp [dlookup, compute_CIDP, cidpRow, cidpMats, buildLR, fixDiag,
      outerStep, stepStrong, stepWeak, strongOf, weakOf, lookupR, initL,
      initR, sortedKeys, idx2uid, uid2idx, keys, mset, madd, soloPop,
      soloRisk, soloItd, List.insertionSort, List.orderedInsert,
      ITD.trajectories, List.range_succ, List.find?, List.foldl,
      List.filter, List.indexOf, List.findIdx, List.findIdx.go]
  exact ⟨h, by rw [h]; norm_num⟩

/-- C1 (amended): a user with no strong relations and no weak relations in
either direction receives disclosure value `CIDP[u] = 0` from
`compute_CIDP`, for every budget vector ε and factor θ — its `mat_L` row
is never written, so the returned row sum has no nonzero term. -/
theorem compute_CIDP_no_relations (pop : Pop) (riskest : RMap)
    (epsl : Nat → ℚ) (theta : ℚ) (hk : (keys pop).Nodup)
    (hsub : ∀ e ∈ riskest, e.1 ∈ keys pop) {u : Nat} (hu : u ∈ keys pop)
    (hs : strongOf riskest u = []) (hw : weakOf pop riskest u = [])
    (hsin : ∀ w ∈ keys pop, u ∉ strongOf riskest w)
    (hwin : ∀ w ∈ keys pop, u ∉ weakOf pop riskest w) :
    dlookup (compute_CIDP pop riskest epsl theta) u = 0 := by
  rw [dlookup_compute_CIDP pop riskest epsl theta hk hu]
  exact cidpRow_isolated pop riskest epsl theta hk hsub hu hs hw hsin hwin

theorem compute_CIDP_no_relations_witness :
    dlookup (compute_CIDP soloPop soloRisk (fun _ => (7:ℚ)) (1/2)) 1 = 0 :=
  compute_CIDP_no_relations soloPop soloRisk (fun _ => (7:ℚ)) (1/2)
    (by decide) (by decide) (by decide) (by decide) (by decide)
    (by decide) (by decide)

/-- C4: for every population, riskiest assignment, budget vector, θ in
(0,1) and β > 0, raising every budget in `affected[u]` by β while fixing
the rest never decreases `CIDP[u]`. -/
theorem compute_CIDP_affected_mono (pop : Pop) (riskest : RMap)
    (epsl : Nat → ℚ) {theta beta : ℚ} (hk : (keys pop).Nodup)
    (hsub : ∀ e ∈ riskest, e.1 ∈ keys pop) (ht0 : 0 < theta)
    (ht1 : theta < 1) (hb : 0 < beta) {u : Nat} (hu : u ∈ keys pop) :
    dlookup (compute_CIDP pop riskest epsl theta) u ≤
      dlookup (compute_CIDP pop riskest
        (fun w => if w ∈ affected_by pop riskest u then epsl w + beta
                  else epsl w) theta) u := by
  rw [dlookup_compute_CIDP _ _ _ _ hk hu, dlookup_compute_CIDP _ _ _ _ hk hu]
  refine cidpRow_mono pop riskest hk hsub (le_of_lt ht0) ?_ _
  intro w
  by_cases hwm : w ∈ affected_by pop riskest u
  · rw [if_pos hwm]; linarith
  · rw [if_neg hwm]

theorem compute_CIDP_affected_mono_witness :
    dlookup (compute_CIDP exPop exRisk (fun _ => (1:ℚ)) (1/2)) 1 ≤
      dlookup (compute_CIDP exPop exRisk
        (fun w => if w ∈ affected_by exPop exRisk 1 then (1:ℚ) + 1
                  else (1:ℚ)) (1/2)) 1 :=
  compute_CIDP_affected_mono exPop exRisk (fun _ => (1:ℚ))
    (by decide) (by decide) one_half_pos one_half_lt_one one_pos (by decide)

/-! Effect of the budget-bump loops. -/

theorem bumpUp_apply {A : List Nat} (hnd : A.Nodup) (beta : ℚ)
    (epsl : Nat → ℚ) (w : Nat) :
    bumpUp A beta epsl w = if w ∈ A then epsl w + beta else epsl w := by
  induction A generalizing epsl with
  | nil => simp [bumpUp]
  | cons a A ih =>
    simp only [bumpUp, List.foldl_cons] at ih ⊢
    rw [ih (List.nodup_cons.mp hnd).2]
    by_cases hw : w ∈ A
    · have hwa : w ≠ a := fun h => (List.nodup_cons.mp hnd).1 (h ▸ hw)
      rw [if_pos hw, if_pos (List.mem_cons_of_mem a hw)]
      simp [addTo, hwa]
    · rw [if_neg hw]
      by_cases hwa : w = a
      · subst hwa
        rw [if_pos (List.mem_cons_self w A)]
        simp [addTo]
      · rw [if_neg (fun hx => by
          rcases List.mem_cons.mp hx with h | h
          · exact hwa h
          · exact hw h)]
        simp [addTo, hwa]

theorem bumpDown_apply {A : List Nat} (hnd : A.Nodup) (beta : ℚ)
    (epsl : Nat → ℚ) (w : Nat) :
    bumpDown A beta epsl w = if w ∈ A then epsl w - beta else epsl w := by
  induction A generalizing epsl with
  | nil => simp [bumpDown]
  | cons a A ih =>
    simp only [bumpDown, List.foldl_cons] at ih ⊢
    rw [ih (List.nodup_cons.mp hnd).2]
    by_cases hw : w ∈ A
    · have hwa : w ≠ a := fun h => (List.nodup_cons.mp hnd).1 (h ▸ hw)
      rw [if_pos hw, if_pos (List.mem_cons_of_mem a hw)]
      simp [subTo, hwa]
    · rw [if_neg hw]
      by_cases hwa : w = a
      · subst hwa
        rw [if_pos (List.mem_cons_self w A)]
        simp [subTo]
      · rw [if_neg (fun hx => by
          rcases List.mem_cons.mp hx with h | h
          · exact hwa h
          · exact hw h)]
        simp [subTo, hwa]

theorem bumpUp_not_mem {A : List Nat} {w : Nat} (hw : w ∉ A) (beta : ℚ)
    (epsl : Nat → ℚ) : bumpUp A beta epsl w = epsl w := by
  induction A generalizing epsl with
  | nil => rfl
  | cons a A ih =>
    simp only [bumpUp, List.foldl_cons] at ih ⊢
    rw [ih (fun h => hw (List.mem_cons_of_mem a h))]
    have hwa : w ≠ a := fun h => hw (h ▸ List.mem_cons_self a A)
    simp [addTo, hwa]

theorem bumpDown_not_mem {A : List Nat} {w : Nat} (hw : w ∉ A) (beta : ℚ)
    (epsl : Nat → ℚ) : bumpDown A beta epsl w = epsl w := by
  induction A generalizing epsl with
  | nil => rfl
  | cons a A ih =>
    simp only [bumpDown, List.foldl_cons] at ih ⊢
    rw [ih (fun h => hw (List.mem_cons_of_mem a h))]
    have hwa : w ≠ a := fun h => hw (h ▸ List.mem_cons_self a A)
    simp [subTo, hwa]

theorem affected_by_nodup (pop : Pop) (riskest : RMap)
    (hk : (keys pop).Nodup) (hrnd : (riskest.map Prod.fst).Nodup)
    (u : Nat) : (affected_by pop riskest u).Nodup := by
  unfold affected_by
  rw [List.nodup_cons, List.nodup_append]
  refine ⟨?_, hrnd.filter _, hk.filter _, ?_⟩
  · intro hmem
    rcases List.mem_append.mp hmem with h | h
    · have := List.of_mem_filter h
      simp only [List.contains, List.elem_eq_mem, decide_eq_true_eq] at this
      exact ne_of_mem_strongOf this rfl
    · have := List.of_mem_filter h
      simp only [List.contains, List.elem_eq_mem, decide_eq_true_eq] at this
      exact ne_of_mem_weakOf this rfl
  · intro k hk1 hk2
    have h1 := List.of_mem_filter hk1
    have h2 := List.of_mem_filter hk2
    simp only [List.contains, List.elem_eq_mem, decide_eq_true_eq] at h1 h2
    exact (mem_weakOf_iff.mp h2).2.choose_spec.choose_spec.2.2.2 h1

theorem mem_affected_self (pop : Pop) (riskest : RMap) (u : Nat) :
    u ∈ affected_by pop riskest u := by
  unfold affected_by
  exact List.mem_cons_self u _

theorem not_hasRel_props (pop : Pop) (riskest : RMap)
    (hrnd : (riskest.map Prod.fst).Nodup) {u : Nat}
    (h : ¬ hasRel pop riskest u) :
    strongOf riskest u = [] ∧ weakOf pop riskest u = [] ∧
    (∀ w ∈ keys pop, u ∉ strongOf riskest w) ∧
    (∀ w ∈ keys pop, u ∉ weakOf pop riskest w) := by
  unfold hasRel at h
  push_neg at h
  obtain ⟨h1, h2, h3⟩ := h
  refine ⟨h1, h2, ?_, h3⟩
  intro w _ hmem
  have := (mem_strongOf_iff hrnd).mp hmem
  have hw : w ∈ strongOf riskest u := by
    rw [mem_strongOf_iff hrnd]
    rcases this with ⟨hne, t, hw1, hw2⟩
    exact ⟨hne.symm, t, hw2, hw1⟩
  rw [h1] at hw
  exact List.not_mem_nil w hw

theorem dlookup_cidp_isolated (pop : Pop) (riskest : RMap)
    (epsl : Nat → ℚ) (theta : ℚ) (hk : (keys pop).Nodup)
    (hrnd : (riskest.map Prod.fst).Nodup)
    (hsub : ∀ e ∈ riskest, e.1 ∈ keys pop) {u : Nat} (hu : u ∈ keys pop)
    (h : ¬ hasRel pop riskest u) :
    dlookup (compute_CIDP pop riskest epsl theta) u = 0 := by
  obtain ⟨h1, h2, h3, h4⟩ := not_hasRel_props pop riskest hrnd h
  rw [dlookup_compute_CIDP pop riskest epsl theta hk hu]
  exact cidpRow_isolated pop riskest epsl theta hk hsub hu h1 h2 h3 h4

/-! Exact effect of one bump on the observed disclosure of `u`. -/

theorem cidp_bumpUp (pop : Pop) (riskest : RMap) {beta : ℚ}
    (hk : (keys pop).Nodup) (hrnd : (riskest.map Prod.fst).Nodup)
    (hsub : ∀ e ∈ riskest, e.1 ∈ keys pop) (hb : 0 < beta) {u : Nat}
    (hu : u ∈ keys pop) (hrel : hasRel pop riskest u) (epsl : Nat → ℚ) :
    dlookup (compute_CIDP pop riskest epsl (1/4)) u + beta ≤
      dlookup (compute_CIDP pop riskest
        (bumpUp (affected_by pop riskest u) beta epsl) (1/4)) u := by
  have hA := affected_by_nodup pop riskest hk hrnd u
  rw [dlookup_compute_CIDP _ _ _ _ hk hu, dlookup_compute_CIDP _ _ _ _ hk hu]
  have hLd : (buildLR pop riskest epsl (1/4)).1
      (uid2idx pop u) (uid2idx pop u) ≠ 0 :=
    ne_of_gt (lt_of_lt_of_le one_half_pos
      (buildLR_diag_half pop riskest epsl (1/4) hk hsub hu hrel))
  have he : ∀ w, epsl w ≤ bumpUp (affected_by pop riskest u) beta epsl w := by
    intro w
    rw [bumpUp_apply hA]
    by_cases hw : w ∈ affected_by pop riskest u
    · rw [if_pos hw]; linarith
    · rw [if_neg hw]
  have hshift := cidpRow_shift pop riskest hk hsub
    (by norm_num : (0:ℚ) ≤ 1/4) he (uid2idx_lt hu) hLd
  rw [idx2uid_uid2idx hu] at hshift
  have hbval : bumpUp (affected_by pop riskest u) beta epsl u
      = epsl u + beta := by
    rw [bumpUp_apply hA, if_pos (mem_affected_self pop riskest u)]
  rw [hbval] at hshift
  linarith

theorem cidp_bumpDown (pop : Pop) (riskest : RMap) {beta : ℚ}
    (hk : (keys pop).Nodup) (hrnd : (riskest.map Prod.fst).Nodup)
    (hsub : ∀ e ∈ riskest, e.1 ∈ keys pop) (hb : 0 < beta) {u : Nat}
    (hu : u ∈ keys pop) (hrel : hasRel pop riskest u) (epsl : Nat → ℚ) :
    dlookup (compute_CIDP pop riskest
        (bumpDown (affected_by pop riskest u) beta epsl) (1/4)) u ≤
      dlookup (compute_CIDP pop riskest epsl (1/4)) u - beta := by
  have hA := affected_by_nodup pop riskest hk hrnd u
  rw [dlookup_compute_CIDP _ _ _ _ hk hu, dlookup_compute_CIDP _ _ _ _ hk hu]
  have hLd : (buildLR pop riskest
      (bumpDown (affected_by pop riskest u) beta epsl) (1/4)).1
      (uid2idx pop u) (uid2idx pop u) ≠ 0 :=
    ne_of_gt (lt_of_lt_of_le one_half_pos
      (buildLR_diag_half pop riskest _ (1/4) hk hsub hu hrel))
  have he : ∀ w, bumpDown (affected_by pop riskest u) beta epsl w ≤ epsl w := by
    intro w
    rw [bumpDown_apply hA]
    by_cases hw : w ∈ affected_by pop riskest u
    · rw [if_pos hw]; linarith
    · rw [if_neg hw]
  have hshift := cidpRow_shift pop riskest hk hsub
    (by norm_num : (0:ℚ) ≤ 1/4) he (uid2idx_lt hu) hLd
  rw [idx2uid_uid2idx hu] at hshift
  have hbval : bumpDown (affected_by pop riskest u) beta epsl u
      = epsl u - beta := by
    rw [bumpDown_apply hA, if_pos (mem_affected_self pop riskest u)]
  rw [hbval] at hshift
  linarith

/-! Iterated bumps drive the observed disclosure across the bound. -/

theorem cidp_iter_up (pop : Pop) (riskest : RMap) {beta : ℚ}
    (hk : (keys pop).Nodup) (hrnd : (riskest.map Prod.fst).Nodup)
    (hsub : ∀ e ∈ riskest, e.1 ∈ keys pop) (hb : 0 < beta) {u : Nat}
    (hu : u ∈ keys pop) (hrel : hasRel pop riskest u) :
    ∀ (k : Nat) (epsl : Nat → ℚ),
      dlookup (compute_CIDP pop riskest epsl (1/4)) u + (k : ℚ) * beta ≤
        dlookup (compute_CIDP pop riskest
          ((bumpUp (affected_by pop riskest u) beta)^[k] epsl) (1/4)) u := by
  intro k
  induction k with
  | zero => intro epsl; simp
  | succ k ih =>
    intro epsl
    rw [Function.iterate_succ_apply]
    have h1 := cidp_bumpUp pop riskest hk hrnd hsub hb hu hrel epsl
    have h2 := ih (bumpUp (affected_by pop riskest u) beta epsl)
    push_cast
    linarith

theorem cidp_iter_down (pop : Pop) (riskest : RMap) {beta : ℚ}
    (hk : (keys pop).Nodup) (hrnd : (riskest.map Prod.fst).Nodup)
    (hsub : ∀ e ∈ riskest, e.1 ∈ keys pop) (hb : 0 < beta) {u : Nat}
    (hu : u ∈ keys pop) (hrel : hasRel pop riskest u) :
    ∀ (k : Nat) (epsl : Nat → ℚ),
      dlookup (compute_CIDP pop riskest
          ((bumpDown (affected_by pop riskest u) beta)^[k] epsl) (1/4)) u ≤
        dlookup (compute_CIDP pop riskest epsl (1/4)) u - (k : ℚ) * beta := by
  intro k
  induction k with
  | zero => intro epsl; simp
  | succ k ih =>
    intro epsl
    rw [Function.iterate_succ_apply]
    have h1 := cidp_bumpDown pop riskest hk hrnd hsub hb hu hrel epsl
    have h2 := ih (bumpDown (affected_by pop riskest u) beta epsl)
    push_cast
    linarith

theorem idfaInc_of_exceeds (pop : Pop) (riskest : RMap) (A : List Nat)
    (u : Nat) (beta : ℚ) :
    ∀ (k : Nat) (epsl : Nat → ℚ),
      1 < dlookup (compute_CIDP pop riskest
        ((bumpUp A beta)^[k+1] epsl) (1/4)) u →
      ∃ r, idfaInc pop riskest A u beta (k+1) epsl = some r := by
  intro k
  induction k with
  | zero =>
    intro epsl h1
    rw [Function.iterate_one] at h1
    refine ⟨(bumpUp A beta epsl,
      compute_CIDP pop riskest (bumpUp A beta epsl) (1/4)), ?_⟩
    simp only [idfaInc]
    rw [if_pos h1]
  | succ k ih =>
    intro epsl h1
    by_cases hc : 1 < dlookup (compute_CIDP pop riskest
        (bumpUp A beta epsl) (1/4)) u
    · refine ⟨(bumpUp A beta epsl,
        compute_CIDP pop riskest (bumpUp A beta epsl) (1/4)), ?_⟩
      simp only [idfaInc]
      rw [if_pos hc]
    · rw [Function.iterate_succ_apply] at h1
      obtain ⟨r, hr⟩ := ih (bumpUp A beta epsl) h1
      refine ⟨r, ?_⟩
      simp only [idfaInc]
      rw [if_neg hc]
      exact hr

theorem idfaDec_of_reaches (pop : Pop) (riskest : RMap) (A : List Nat)
    (u : Nat) (beta : ℚ) :
    ∀ (k : Nat) (epsl : Nat → ℚ),
      dlookup (compute_CIDP pop riskest
        ((bumpDown A beta)^[k+1] epsl) (1/4)) u ≤ 1 →
      ∃ r, idfaDec pop riskest A u beta (k+1) epsl = some r := by
  intro k
  induction k with
  | zero =>
    intro epsl h1
    rw [Function.iterate_one] at h1
    refine ⟨(bumpDown A beta epsl,
      compute_CIDP pop riskest (bumpDown A beta epsl) (1/4)), ?_⟩
    simp only [idfaDec]
    rw [if_pos h1]
  | succ k ih =>
    intro epsl h1
    by_cases hc : dlookup (compute_CIDP pop riskest
        (bumpDown A beta epsl) (1/4)) u ≤ 1
    · refine ⟨(bumpDown A beta epsl,
        compute_CIDP pop riskest (bumpDown A beta epsl) (1/4)), ?_⟩
      simp only [idfaDec]
      rw [if_pos hc]
    · rw [Function.iterate_succ_apply] at h1
      obtain ⟨r, hr⟩ := ih (bumpDown A beta epsl) h1
      refine ⟨r, ?_⟩
      simp only [idfaDec]
      rw [if_neg hc]
      exact hr

theorem idfaInc_terminates (pop : Pop) (riskest : RMap) {beta : ℚ}
    (hk : (keys pop).Nodup) (hrnd : (riskest.map Prod.fst).Nodup)
    (hsub : ∀ e ∈ riskest, e.1 ∈ keys pop) (hb : 0 < beta) {u : Nat}
    (hu : u ∈ keys pop) (hrel : hasRel pop riskest u) (epsl : Nat → ℚ) :
    ∃ f r, idfaInc pop riskest (affected_by pop riskest u) u beta f epsl
      = some r := by
  set v1 := dlookup (compute_CIDP pop riskest
    (bumpUp (affected_by pop riskest u) beta epsl) (1/4)) u with hv1
  obtain ⟨m, hm⟩ := exists_nat_gt ((1 - v1) / beta)
  have hmb : 1 - v1 < (m : ℚ) * beta := by
    rw [div_lt_iff hb] at hm
    linarith
  have hgrow := cidp_iter_up pop riskest hk hrnd hsub hb hu hrel m
    (bumpUp (affected_by pop riskest u) beta epsl)
  have hgt : 1 < dlookup (compute_CIDP pop riskest
      ((bumpUp (affected_by pop riskest u) beta)^[m+1] epsl) (1/4)) u := by
    rw [Function.iterate_succ_apply]
    linarith
  obtain ⟨r, hr⟩ := idfaInc_of_exceeds pop riskest _ u beta m epsl hgt
  exact ⟨m + 1, r, hr⟩

theorem idfaDec_terminates (pop : Pop) (riskest : RMap) {beta : ℚ}
    (hk : (keys pop).Nodup) (hrnd : (riskest.map Prod.fst).Nodup)
    (hsub : ∀ e ∈ riskest, e.1 ∈ keys pop) (hb : 0 < beta) {u : Nat}
    (hu : u ∈ keys pop) (hrel : hasRel pop riskest u) (epsl : Nat → ℚ) :
    ∃ f r, idfaDec pop riskest (affected_by pop riskest u) u beta f epsl
      = some r := by
  set v1 := dlookup (compute_CIDP pop riskest
    (bumpDown (affected_by pop riskest u) beta epsl) (1/4)) u with hv1
  obtain ⟨m, hm⟩ := exists_nat_gt ((v1 - 1) / beta)
  have hmb : v1 - 1 < (m : ℚ) * beta := by
    rw [div_lt_iff hb] at hm
    linarith
  have hfall := cidp_iter_down pop riskest hk hrnd hsub hb hu hrel m
    (bumpDown (affected_by pop riskest u) beta epsl)
  have hle : dlookup (compute_CIDP pop riskest
      ((bumpDown (affected_by pop riskest u) beta)^[m+1] epsl) (1/4)) u ≤ 1 := by
    rw [Function.iterate_succ_apply]
    linarith
  obtain ⟨r, hr⟩ := idfaDec_of_reaches pop riskest _ u beta m epsl hle
  exact ⟨m + 1, r, hr⟩

/-! What the loops return, and fuel monotonicity. -/

theorem idfaInc_some_props (pop : Pop) (riskest : RMap) (A : List Nat)
    (u : Nat) (beta : ℚ) :
    ∀ (f : Nat) (epsl : Nat → ℚ) (r),
      idfaInc pop riskest A u beta f epsl = some r →
      r.2 = compute_CIDP pop riskest r.1 (1/4) ∧
      ∀ w, w ∉ A → r.1 w = epsl w := by
  intro f
  induction f with
  | zero => intro epsl r h; exact Option.noConfusion h
  | succ f ih =>
    intro epsl r h
    simp only [idfaInc] at h
    by_cases hc : 1 < dlookup (compute_CIDP pop riskest
        (bumpUp A beta epsl) (1/4)) u
    · rw [if_pos hc] at h
      injection h with h2
      subst h2
      exact ⟨rfl, fun w hw => bumpUp_not_mem hw beta epsl⟩
    · rw [if_neg hc] at h
      obtain ⟨h1, h2⟩ := ih (bumpUp A beta epsl) r h
      exact ⟨h1, fun w hw => (h2 w hw).trans (bumpUp_not_mem hw beta epsl)⟩

theorem idfaDec_some_props (pop : Pop) (riskest : RMap) (A : List Nat)
    (u : Nat) (beta : ℚ) :
    ∀ (f : Nat) (epsl : Nat → ℚ) (r),
      idfaDec pop riskest A u beta f epsl = some r →
      r.2 = compute_CIDP pop riskest r.1 (1/4) ∧
      ∀ w, w ∉ A → r.1 w = epsl w := by
  intro f
  induction f with
  | zero => intro epsl r h; exact Option.noConfusion h
  | succ f ih =>
    intro epsl r h
    simp only [idfaDec] at h
    by_cases hc : dlookup (compute_CIDP pop riskest
        (bumpDown A beta epsl) (1/4)) u ≤ 1
    · rw [if_pos hc] at h
      injection h with h2
      subst h2
      exact ⟨rfl, fun w hw => bumpDown_not_mem hw beta epsl⟩
    · rw [if_neg hc] at h
      obtain ⟨h1, h2⟩ := ih (bumpDown A beta epsl) r h
      exact ⟨h1, fun w hw => (h2 w hw).trans (bumpDown_not_mem hw beta epsl)⟩

theorem idfaInc_mono (pop : Pop) (riskest : RMap) (A : List Nat)
    (u : Nat) (beta : ℚ) :
    ∀ (f1 : Nat), ∀ (f2 : Nat) (epsl : Nat → ℚ) (r), f1 ≤ f2 →
      idfaInc pop riskest A u beta f1 epsl = some r →
      idfaInc pop riskest A u beta f2 epsl = some r := by
  intro f1
  induction f1 with
  | zero => intro f2 epsl r _ h; exact Option.noConfusion h
  | succ f1 ih =>
    intro f2 epsl r hle h
    cases f2 with
    | zero => omega
    | succ f2 =>
      simp only [idfaInc] at h ⊢
      by_cases hc : 1 < dlookup (compute_CIDP pop riskest
          (bumpUp A beta epsl) (1/4)) u
      · rw [if_pos hc] at h ⊢; exact h
      · rw [if_neg hc] at h ⊢
        exact ih f2 (bumpUp A beta epsl) r (by omega) h

theorem idfaDec_mono (pop : Pop) (riskest : RMap) (A : List Nat)
    (u : Nat) (beta : ℚ) :
    ∀ (f1 : Nat), ∀ (f2 : Nat) (epsl : Nat → ℚ) (r), f1 ≤ f2 →
      idfaDec pop riskest A u beta f1 epsl = some r →
      idfaDec pop riskest A u beta f2 epsl = some r := by
  intro f1
  induction f1 with
  | zero => intro f2 epsl r _ h; exact Option.noConfusion h
  | succ f1 ih =>
    intro f2 epsl r hle h
    cases f2 with
    | zero => omega
    | succ f2 =>
      simp only [idfaDec] at h ⊢
      by_cases hc : dlookup (compute_CIDP pop riskest
          (bumpDown A beta epsl) (1/4)) u ≤ 1
      · rw [if_pos hc] at h ⊢; exact h
      · rw [if_neg hc] at h ⊢
        exact ih f2 (bumpDown A beta epsl) r (by omega) h

theorem idfaUser_mono (pop : Pop) (riskest : RMap) (beta : ℚ)
    {f1 f2 : Nat} (hle : f1 ≤ f2) (s : (Nat → ℚ) × List (Nat × ℚ))
    (u : Nat) {r} (h : idfaUser pop riskest beta f1 s u = some r) :
    idfaUser pop riskest beta f2 s u = some r := by
  unfold idfaUser at h ⊢
  by_cases h0 : lookupR riskest u = none
  · rw [if_pos h0] at h ⊢; exact h
  · rw [if_neg h0] at h ⊢
    by_cases hg1 : s.1 u < dlookup s.2 u ∧ dlookup s.2 u ≤ 1
    · rw [if_pos hg1] at h ⊢
      exact idfaInc_mono pop riskest _ u beta f1 f2 s.1 r hle h
    · rw [if_neg hg1] at h ⊢
      by_cases hg2 : 1 < dlookup s.2 u
      · rw [if_pos hg2] at h ⊢
        exact idfaDec_mono pop riskest _ u beta f1 f2 s.1 r hle h
      · rw [if_neg hg2] at h ⊢; exact h

theorem idfa_fold_none (pop : Pop) (riskest : RMap) (beta : ℚ) (f : Nat) :
    ∀ (l : List Nat),
      l.foldl (fun acc u => acc.bind
        (fun s => idfaUser pop riskest beta f s u)) none = none := by
  intro l
  induction l with
  | nil => rfl
  | cons u l ih =>
    simp only [List.foldl_cons, Option.none_bind]
    exact ih

theorem idfa_fold_mono (pop : Pop) (riskest : RMap) (beta : ℚ) :
    ∀ (l : List Nat) {f1 f2 : Nat} (s r), f1 ≤ f2 →
      l.foldl (fun acc u => acc.bind
        (fun st => idfaUser pop riskest beta f1 st u)) (some s) = some r →
      l.foldl (fun acc u => acc.bind
        (fun st => idfaUser pop riskest beta f2 st u)) (some s) = some r := by
  intro l
  induction l with
  | nil => intro f1 f2 s r _ h; exact h
  | cons u l ih =>
    intro f1 f2 s r hle h
    rw [List.foldl_cons] at h ⊢
    simp only [Option.some_bind] at h ⊢
    cases hstep : idfaUser pop riskest beta f1 s u with
    | none =>
      rw [hstep] at h
      rw [idfa_fold_none] at h
      exact Option.noConfusion h
    | some s1 =>
      rw [hstep] at h
      rw [idfaUser_mono pop riskest beta hle s u hstep]
      exact ih s1 r hle h

/-- Main induction for `compute_IDFA`: processing any sublist of users
from a consistent state succeeds with enough fuel, because every entered
search loop terminates (related users cross the bound after finitely many
β-steps; unrelated users never satisfy a loop guard at the default
budget). -/
theorem idfa_fold_exists (pop : Pop) (riskest : RMap) {beta : ℚ}
    (hk : (keys pop).Nodup) (hrnd : (riskest.map Prod.fst).Nodup)
    (hsub : ∀ e ∈ riskest, e.1 ∈ keys pop) (hb : 0 < beta) :
    ∀ (l : List Nat), (∀ x ∈ l, x ∈ keys pop) →
      ∀ s : (Nat → ℚ) × List (Nat × ℚ),
      s.2 = compute_CIDP pop riskest s.1 (1/4) →
      (∀ v ∈ keys pop, ¬ hasRel pop riskest v → s.1 v = 1/10) →
      ∃ f r, l.foldl (fun acc u => acc.bind
          (fun st => idfaUser pop riskest beta f st u)) (some s) = some r ∧
        r.2 = compute_CIDP pop riskest r.1 (1/4) ∧
        (∀ v ∈ keys pop, ¬ hasRel pop riskest v → r.1 v = 1/10) := by
  intro l
  induction l with
  | nil =>
    intro _ s h1 h2
    exact ⟨0, s, rfl, h1, h2⟩
  | cons u l ih =>
    intro hsubl s h1 h2
    have hu : u ∈ keys pop := hsubl u (List.mem_cons_self u l)
    obtain ⟨f1, s1, hstep, hs1, hs2⟩ :
        ∃ f1 s1, idfaUser pop riskest beta f1 s u = some s1 ∧
          s1.2 = compute_CIDP pop riskest s1.1 (1/4) ∧
          (∀ v ∈ keys pop, ¬ hasRel pop riskest v → s1.1 v = 1/10) := by
      by_cases h0 : lookupR riskest u = none
      · refine ⟨0, s, ?_, h1, h2⟩
        unfold idfaUser
        rw [if_pos h0]
      · by_cases hrel : hasRel pop riskest u
        · by_cases hg1 : s.1 u < dlookup s.2 u ∧ dlookup s.2 u ≤ 1
          · obtain ⟨f, r, hloop⟩ :=
              idfaInc_terminates pop riskest hk hrnd hsub hb hu hrel s.1
            have hprops := idfaInc_some_props pop riskest _ u beta f s.1 r hloop
            refine ⟨f, r, ?_, hprops.1, ?_⟩
            · unfold idfaUser
              rw [if_neg h0, if_pos hg1]
              exact hloop
            · intro v hv hvrel
              rw [hprops.2 v ?_, h2 v hv hvrel]
              intro hvA
              rcases (mem_affected_by_iff pop riskest hsub u v).mp hvA
                with hvu | hst | hwk
              · exact (hvu ▸ hvrel) hrel
              · exact hvrel (Or.inl (List.ne_nil_of_mem hst))
              · exact hvrel (Or.inr (Or.inl (List.ne_nil_of_mem hwk)))
          · by_cases hg2 : 1 < dlookup s.2 u
            · obtain ⟨f, r, hloop⟩ :=
                idfaDec_terminates pop riskest hk hrnd hsub hb hu hrel s.1
              have hprops := idfaDec_some_props pop riskest _ u beta f s.1 r hloop
              refine ⟨f, r, ?_, hprops.1, ?_⟩
              · unfold idfaUser
                rw [if_neg h0, if_neg hg1, if_pos hg2]
                exact hloop
              · intro v hv hvrel
                rw [hprops.2 v ?_, h2 v hv hvrel]
                intro hvA
                rcases (mem_affected_by_iff pop riskest hsub u v).mp hvA
                  with hvu | hst | hwk
                · exact (hvu ▸ hvrel) hrel
                · exact hvrel (Or.inl (List.ne_nil_of_mem hst))
                · exact hvrel (Or.inr (Or.inl (List.ne_nil_of_mem hwk)))
            · refine ⟨0, s, ?_, h1, h2⟩
              unfold idfaUser
              rw [if_neg h0, if_neg hg1, if_neg hg2]
        · have hc0 : dlookup s.2 u = 0 := by
            rw [h1]
            exact dlookup_cidp_isolated pop riskest s.1 (1/4) hk hrnd hsub hu hrel
          have he0 : s.1 u = 1/10 := h2 u hu hrel
          refine ⟨0, s, ?_, h1, h2⟩
          unfold idfaUser
          rw [if_neg h0, if_neg ?_, if_neg ?_]
          · rw [hc0]
            norm_num
          · rintro ⟨hlt, -⟩
            rw [hc0, he0] at hlt
            norm_num at hlt
    obtain ⟨f2, r, hfold, hr1, hr2⟩ :=
      ih (fun x hx => hsubl x (List.mem_cons_of_mem u hx)) s1 hs1 hs2
    refine ⟨max f1 f2, r, ?_, hr1, hr2⟩
    rw [List.foldl_cons]
    simp only [Option.some_bind]
    rw [idfaUser_mono pop riskest beta (le_max_left f1 f2) s u hstep]
    exact idfa_fold_mono pop riskest beta l s1 r (le_max_right f1 f2) hfold

/-- C3: for every population and riskiest-trajectory assignment (with the
dict-key invariants of the source) and every step β > 0, the whole
optimizer terminates at the default `epsl_init = 0.1`: both fuelled inner
search loops reach their termination conditions (`CIDP[u] > 1` for the
increment loop, `CIDP[u] ≤ 1` for the decrement loop) after finitely many
β-steps, so some finite fuel makes every loop exit — the source never
loops forever. -/
theorem compute_IDFA_terminates (pop : Pop) (riskest : RMap) {beta : ℚ}
    (hk : (keys pop).Nodup) (hrnd : (riskest.map Prod.fst).Nodup)
    (hsub : ∀ e ∈ riskest, e.1 ∈ keys pop) (hb : 0 < beta) :
    ∃ fuel epsl, compute_IDFA fuel pop riskest (1/10) beta = some epsl := by
  obtain ⟨f, r, hfold, -, -⟩ := idfa_fold_exists pop riskest hk hrnd hsub hb
    (keys pop) (fun x hx => hx)
    ((fun _ => 1/10), compute_CIDP pop riskest (fun _ => 1/10) (1/4)) rfl
    (fun v _ _ => rfl)
  refine ⟨f, r.1, ?_⟩
  unfold compute_IDFA
  rw [hfold]
  rfl

theorem compute_IDFA_terminates_witness :
    ∃ fuel epsl, compute_IDFA fuel exPop exRisk (1/10) 1 = some epsl :=
  compute_IDFA_terminates exPop exRisk (by decide) (by decide) (by decide)
    one_pos

theorem itdOf_eq {pop : Pop} (hk : (keys pop).Nodup) {u : Nat} {d : ITD}
    (hm : (u, d) ∈ pop) : itdOf pop u = d := by
  induction pop with
  | nil => cases hm
  | cons e es ih =>
    simp only [keys, List.map_cons, List.nodup_cons] at hk
    rcases List.mem_cons.mp hm with he | hes
    · subst he
      simp [itdOf, List.find?]
    · have hne : e.1 ≠ u := by
        intro h
        exact hk.1 (h ▸ (List.mem_map.mpr ⟨(u, d), hes, rfl⟩))
      have := ih hk.2 hes
      simp only [itdOf, List.find?] at this ⊢
      have hb : (e.1 == u) = false := by simp [hne]
      rw [hb]
      exact this

/-- C10: if no user holds any trajectory of risk at or above `p`
(including the empty population), `sanitize` leaves its first round at
the `if not riskest: break` check, before ever calling the optimizer, and
falls off the loop returning Python's `None` instead of a count table. -/
theorem sanitize_no_risky (pop : Pop) (p : ℚ) (max_round fuel : Nat)
    (lap : ℚ → ℚ) (hk : (keys pop).Nodup)
    (h : ∀ e ∈ pop, ∀ t ∈ (e.2 : ITD).trajectories,
      risk (e.2.count t) t pop < p) :
    sanitize pop p max_round fuel lap = some none := by
  unfold sanitize
  cases hmr : max_round - 1 with
  | zero => rfl
  | succ r =>
    have hrisky : ∀ e ∈ pop, riskyOf pop p (itdOf pop e.1) = [] := by
      rintro ⟨u, d⟩ he
      rw [itdOf_eq hk he]
      unfold riskyOf
      rw [List.filter_eq_nil_iff.mpr, List.map_nil]
      intro x hx
      have hx2 : x ∈ d.trajectories.map
          (fun t => (t, risk (d.count t) t pop)) :=
        (List.perm_insertionSort _ _).subset hx
      rcases List.mem_map.mp hx2 with ⟨t, ht, rfl⟩
      simp only [decide_eq_true_eq, not_le]
      exact h (u, d) he t ht
    simp only [sanitizeRound]
    rw [if_pos]
    rw [List.filterMap_eq_nil_iff.mpr]
    · rfl
    · intro e he
      rw [hrisky e he]
      rfl

theorem sanitize_single_round :
    sanitize bugPop (1/2) 1000 0 (fun _ => 0) =
      some (some [(1, [([0], (1:ℚ)), ([1], 1)])]) ∧
    riskyOf bugPop (1/2) bugItd = [[0], [1]] ∧
    (1/2 : ℚ) ≤ risk (bugItd.count [0]) [0] bugPop := by
  have haux : ∀ r : Nat, sanitizeRound bugPop (1/2) 0 (fun _ => 0) (r+1)
      (fun u => riskyOf bugPop (1/2) (itdOf bugPop u)) (fun _ => []) =
      some (some [(1, [([0], (1:ℚ)), ([1], 1)])]) := by
    intro r
    have f1 : ((2 : ℚ)⁻¹ ≤ 1) := by norm_num
    have f2 : ¬((1 : ℚ)/10 < 0) := by norm_num
    have f3 : ¬((1 : ℚ) < 0) := by norm_num
    have f4 : ¬((1 : ℚ) < 2⁻¹) := by norm_num
    have f5 : ¬((10 : ℚ) < 0) := by norm_num
    simp [f1, f2, f3, f4, f5, sanitizeRound, compute_IDFA, idfaUser, dlookup, compute_CIDP,
      cidpRow, cidpMats, buildLR, fixDiag, outerStep, stepStrong, stepWeak,
      strongOf, weakOf, lookupR, initL, initR, sortedKeys, idx2uid, uid2idx,
      keys, mset, madd, itdOf, popCount, risk, riskyOf, shrinkCnt,
      ITD.trajectories, ITD.count, List.insertionSort, List.orderedInsert,
      List.range_succ, List.find?, List.foldl, List.filter, List.filterMap,
      bugPop, bugItd]
  refine ⟨?_, ?_, ?_⟩
  · unfold sanitize
    have h : (1000 : Nat) - 1 = 998 + 1 := by norm_num
    rw [h]
    exact haux 998
  · have f1 : ((2 : ℚ)⁻¹ ≤ 1) := by norm_num
    simp [f1, riskyOf, List.insertionSort, List.orderedInsert, risk,
      popCount, ITD.trajectories, ITD.count, List.find?, List.filter,
      bugPop, bugItd]
  · simp [risk, popCount, ITD.trajectories, ITD.count, List.find?,
      bugPop, bugItd]
    norm_num

theorem sanitize_no_risky_witness :
    sanitize soloPop 2 1000 0 (fun _ => (0:ℚ)) = some none :=
  sanitize_no_risky soloPop 2 1000 0 (fun _ => (0:ℚ)) (by decide)
    (by simp [risk, popCount, ITD.trajectories, ITD.count, soloPop,
      soloItd, List.find?, one_lt_two])

/-! Determinism of the solver: matrix construction order does not affect
the result.  The two inner-loop bodies commute on distinct neighbors. -/

theorem stepStrong_comm (pop : Pop) (epsl : Nat → ℚ) (i : Nat) {x y : Nat}
    (hx : uid2idx pop x ≠ i) (hy : uid2idx pop y ≠ i)
    (hxy : x = y ∨ uid2idx pop x ≠ uid2idx pop y) (M : Mat × Mat) :
    stepStrong pop epsl i (stepStrong pop epsl i M x) y =
      stepStrong pop epsl i (stepStrong pop epsl i M y) x := by
  rcases hxy with rfl | hne
  · rfl
  · refine Prod.ext ?_ ?_
    · funext a b
      simp only [stepStrong_fst_apply]
      by_cases h1 : a = i <;> by_cases h2 : b = i <;>
        by_cases h3 : a = uid2idx pop x <;> by_cases h4 : b = uid2idx pop x <;>
        by_cases h5 : a = uid2idx pop y <;> by_cases h6 : b = uid2idx pop y <;>
        simp_all <;> ring
    · funext a b
      simp only [stepStrong_snd_apply]
      by_cases h1 : a = i <;> by_cases h2 : b = i <;>
        by_cases h3 : a = uid2idx pop x <;> by_cases h4 : b = uid2idx pop x <;>
        by_cases h5 : a = uid2idx pop y <;> by_cases h6 : b = uid2idx pop y <;>
        simp_all

theorem stepWeak_comm (pop : Pop) (epsl : Nat → ℚ) (theta : ℚ) (i : Nat)
    {x y : Nat} (hx : uid2idx pop x ≠ i) (hy : uid2idx pop y ≠ i)
    (hxy : x = y ∨ uid2idx pop x ≠ uid2idx pop y) (M : Mat × Mat) :
    stepWeak pop epsl theta i (stepWeak pop epsl theta i M x) y =
      stepWeak pop epsl theta i (stepWeak pop epsl theta i M y) x := by
  rcases hxy with rfl | hne
  · rfl
  · refine Prod.ext ?_ ?_
    · funext a b
      simp only [stepWeak_fst_apply]
      by_cases h1 : a = i <;> by_cases h2 : b = i <;>
        by_cases h3 : a = uid2idx pop x <;> by_cases h4 : b = uid2idx pop x <;>
        by_cases h5 : a = uid2idx pop y <;> by_cases h6 : b = uid2idx pop y <;>
        simp_all <;> ring
    · funext a b
      simp only [stepWeak_snd_apply]
      by_cases h1 : a = i <;> by_cases h2 : b = i <;>
        by_cases h3 : a = uid2idx pop x <;> by_cases h4 : b = uid2idx pop x <;>
        by_cases h5 : a = uid2idx pop y <;> by_cases h6 : b = uid2idx pop y <;>
        simp_all

theorem sortedKeys_eq_of_perm {pop pop' : Pop} (hp : pop.Perm pop') :
    sortedKeys pop' = sortedKeys pop := by
  have hperm : (sortedKeys pop').Perm (sortedKeys pop) :=
    (sortedKeys_perm pop').trans
      (((hp.map Prod.fst).symm).trans (sortedKeys_perm pop).symm)
  have hs1 : List.Sorted (fun a b => a ≤ b) (sortedKeys pop') := by
    unfold sortedKeys
    exact List.sorted_insertionSort (fun a b => a ≤ b) _
  have hs2 : List.Sorted (fun a b => a ≤ b) (sortedKeys pop) := by
    unfold sortedKeys
    exact List.sorted_insertionSort (fun a b => a ≤ b) _
  exact List.eq_of_perm_of_sorted hperm hs1 hs2

theorem uid2idx_congr {pop pop' : Pop}
    (hsk : sortedKeys pop' = sortedKeys pop) :
    uid2idx pop' = uid2idx pop := by
  funext u
  unfold uid2idx
  rw [hsk]

theorem idx2uid_congr {pop pop' : Pop}
    (hsk : sortedKeys pop' = sortedKeys pop) :
    idx2uid pop' = idx2uid pop := by
  funext i
  unfold idx2uid
  rw [hsk]

theorem stepStrong_congr {pop pop' : Pop}
    (hsk : sortedKeys pop' = sortedKeys pop) (epsl : Nat → ℚ) (i : Nat) :
    stepStrong pop' epsl i = stepStrong pop epsl i := by
  funext M uj
  unfold stepStrong
  rw [uid2idx_congr hsk, idx2uid_congr hsk]

theorem stepWeak_congr {pop pop' : Pop}
    (hsk : sortedKeys pop' = sortedKeys pop) (epsl : Nat → ℚ) (theta : ℚ)
    (i : Nat) :
    stepWeak pop' epsl theta i = stepWeak pop epsl theta i := by
  funext M uj
  unfold stepWeak
  rw [uid2idx_congr hsk, idx2uid_congr hsk]

theorem initR_congr {pop pop' : Pop}
    (hsk : sortedKeys pop' = sortedKeys pop) (epsl : Nat → ℚ) :
    initR pop' epsl = initR pop epsl := by
  funext a b
  unfold initR
  rw [idx2uid_congr hsk]

theorem fixDiag_congr {pop pop' : Pop}
    (hsk : sortedKeys pop' = sortedKeys pop)
    (hlen : pop'.length = pop.length) (epsl : Nat → ℚ) (L R : Mat) :
    fixDiag pop' epsl L R = fixDiag pop epsl L R := by
  unfold fixDiag
  rw [hlen, idx2uid_congr hsk]

theorem lookupR_perm {riskest riskest' : RMap}
    (hrnd : (riskest.map Prod.fst).Nodup) (hr : riskest.Perm riskest')
    (u : Nat) : lookupR riskest' u = lookupR riskest u := by
  cases hl : lookupR riskest u with
  | some t =>
    exact lookupR_eq_some_of_mem ((hr.map Prod.fst).nodup hrnd)
      (hr.subset (mem_of_lookupR_eq_some hl))
  | none =>
    cases hl2 : lookupR riskest' u with
    | none => rfl
    | some t =>
      have := lookupR_eq_some_of_mem hrnd
        (hr.symm.subset (mem_of_lookupR_eq_some hl2))
      rw [hl] at this
      exact this.symm

theorem strongOf_perm {riskest riskest' : RMap}
    (hrnd : (riskest.map Prod.fst).Nodup) (hr : riskest.Perm riskest')
    (u : Nat) : (strongOf riskest' u).Perm (strongOf riskest u) := by
  unfold strongOf
  rw [lookupR_perm hrnd hr u]
  cases lookupR riskest u with
  | none => exact List.Perm.refl []
  | some t => exact (hr.filter _).symm.map Prod.fst

theorem contains_eq_of_perm {l l' : List Nat} (h : l.Perm l') (a : Nat) :
    l.contains a = l'.contains a := by
  simp only [List.contains, List.elem_eq_mem]
  exact decide_eq_decide.mpr h.mem_iff

theorem weakOf_perm {pop pop' : Pop} {riskest riskest' : RMap}
    (hrnd : (riskest.map Prod.fst).Nodup) (hp : pop.Perm pop')
    (hr : riskest.Perm riskest') (u : Nat) :
    (weakOf pop' riskest' u).Perm (weakOf pop riskest u) := by
  unfold weakOf
  rw [lookupR_perm hrnd hr u]
  cases lookupR riskest u with
  | none => exact List.Perm.refl []
  | some t =>
    dsimp only
    have hpredeq : pop'.filter (fun e =>
        e.1 != u && (e.2.trajectories).contains t
          && !((strongOf riskest' u).contains e.1))
      = pop'.filter (fun e =>
        e.1 != u && (e.2.trajectories).contains t
          && !((strongOf riskest u).contains e.1)) := by
      refine List.filter_congr ?_
      intro e _
      rw [contains_eq_of_perm (strongOf_perm hrnd hr u) e.1]
    rw [hpredeq]
    exact ((hp.filter _).symm).map Prod.fst

theorem foldl_ext {α β : Type _} (f g : β → α → β) (l : List α) (s : β)
    (h : ∀ b a, a ∈ l → f b a = g b a) : l.foldl f s = l.foldl g s := by
  induction l generalizing s with
  | nil => rfl
  | cons x xs ih =>
    rw [List.foldl_cons, List.foldl_cons, h s x (List.mem_cons_self x xs)]
    exact ih (g s x) (fun b a ha => h b a (List.mem_cons_of_mem x ha))

/-- C8: the bound solver is deterministic.  In this pure embedding two
calls with identical inputs are trivially equal, so the content proved is
the stronger reading from the spec: the construction order of the
matrices does not affect the result — feeding the same population and
riskiest-trajectory dicts in any other insertion order (a permutation,
with the dict-key invariants of the source) returns an identical
disclosure dict. -/
theorem compute_CIDP_deterministic (pop pop' : Pop)
    (riskest riskest' : RMap) (epsl : Nat → ℚ) (theta : ℚ)
    (hk : (keys pop).Nodup) (hrnd : (riskest.map Prod.fst).Nodup)
    (hsub : ∀ e ∈ riskest, e.1 ∈ keys pop)
    (hp : pop.Perm pop') (hr : riskest.Perm riskest') :
    compute_CIDP pop' riskest' epsl theta
      = compute_CIDP pop riskest epsl theta := by
  have hsk := sortedKeys_eq_of_perm hp
  have hlen : pop'.length = pop.length := hp.length_eq.symm
  have hLR : buildLR pop' riskest' epsl theta
      = buildLR pop riskest epsl theta := by
    unfold buildLR
    rw [hlen, initR_congr hsk]
    refine foldl_ext _ _ _ _ ?_
    intro M i hi
    have hilt : i < pop.length := List.mem_range.mp hi
    unfold outerStep
    rw [idx2uid_congr hsk, stepStrong_congr hsk, stepWeak_congr hsk]
    have hstrong : (strongOf riskest' (idx2uid pop i)).foldl
        (stepStrong pop epsl i) M
        = (strongOf riskest (idx2uid pop i)).foldl (stepStrong pop epsl i) M := by
      refine List.Perm.foldl_eq' (strongOf_perm hrnd hr _) ?_ M
      intro x hx y hy z
      have hx2 : x ∈ strongOf riskest (idx2uid pop i) :=
        (strongOf_perm hrnd hr _).subset hx
      have hy2 : y ∈ strongOf riskest (idx2uid pop i) :=
        (strongOf_perm hrnd hr _).subset hy
      have hfx := rel_idx_facts hk hsub hilt (Or.inl hx2)
      have hfy := rel_idx_facts hk hsub hilt (Or.inl hy2)
      refine stepStrong_comm pop epsl i hfx.2 hfy.2 ?_ z
      by_cases hxy : x = y
      · exact Or.inl hxy
      · refine Or.inr ?_
        intro hcon
        have hxk : x ∈ keys pop := rel_mem_keys hsub (Or.inl hx2)
        have hyk : y ∈ keys pop := rel_mem_keys hsub (Or.inl hy2)
        exact hxy ((List.indexOf_inj (mem_sortedKeys.mpr hxk)
          (mem_sortedKeys.mpr hyk)).mp hcon)
    rw [hstrong]
    refine List.Perm.foldl_eq' (weakOf_perm hrnd hp hr _) ?_ _
    intro x hx y hy z
    have hx2 : x ∈ weakOf pop riskest (idx2uid pop i) :=
      (weakOf_perm hrnd hp hr _).subset hx
    have hy2 : y ∈ weakOf pop riskest (idx2uid pop i) :=
      (weakOf_perm hrnd hp hr _).subset hy
    have hfx := rel_idx_facts hk hsub hilt (Or.inr hx2)
    have hfy := rel_idx_facts hk hsub hilt (Or.inr hy2)
    refine stepWeak_comm pop epsl theta i hfx.2 hfy.2 ?_ z
    by_cases hxy : x = y
    · exact Or.inl hxy
    · refine Or.inr ?_
      intro hcon
      have hxk : x ∈ keys pop := rel_mem_keys hsub (Or.inr hx2)
      have hyk : y ∈ keys pop := rel_mem_keys hsub (Or.inr hy2)
      exact hxy ((List.indexOf_inj (mem_sortedKeys.mpr hxk)
        (mem_sortedKeys.mpr hyk)).mp hcon)
  unfold compute_CIDP
  rw [hlen]
  refine List.map_congr_left ?_
  intro i hi
  have hrow : cidpRow pop' riskest' epsl theta i
      = cidpRow pop riskest epsl theta i := by
    simp only [cidpRow, cidpMats, hLR, hlen, fixDiag_congr hsk hlen]
  rw [hrow, idx2uid_congr hsk]

theorem compute_CIDP_deterministic_witness :
    compute_CIDP exPopR exRiskR (fun _ => (1:ℚ)) (1/2)
      = compute_CIDP exPop exRisk (fun _ => (1:ℚ)) (1/2) :=
  compute_CIDP_deterministic exPop exPopR exRisk exRiskR (fun _ => (1:ℚ))
    (1/2) (by decide) (by decide) (by decide) (by decide) (by decide)
